import Mathlib

/-!
Verification development for the live test-run tree model of `gotestpretty`.

The definitions below are a shallow embedding of the Go sources:
  * `node.go`           — node record, `output`, `append`, `prepend`,
                          `packageSummaryPattern`
  * `model.go`          — `nodeFor`, `processEvent`, `processChildren`,
                          `nodeSorter`, `elide`, `statusRank`, `statusRank2`,
                          `collectNodes`, `copyWithIndent`, `drop`
  * `findChild`         — child lookup with prefix joins

Modelling conventions:
  * `time.Time` / `time.Duration` values are integers (nanoseconds);
    the zero `time.Time{}` is `0`.
  * The event field `Elapsed` (float64 seconds in Go) is carried as an
    integer number of nanoseconds `elapsedNs`; the Go conversion
    `time.Duration(ev.Elapsed * float64(time.Second))` corresponds to
    `elapsedNs` directly (e.g. `0.5` seconds becomes `500000000`).
    The guard `ev.Elapsed > 0` becomes `ev.elapsedNs > 0`.
  * Pointer-based tree mutation becomes pure tree rebuilding; a node is
    identified by its address (list of child indexes from the root).
  * `go`'s stable sort (`slices.SortStableFunc`) is modelled by a
    structural stable insertion sort with the same comparator; both
    compute the unique stable reordering for the comparator.
  * Each bounded `for` loop becomes structural recursion (with a fuel
    argument equal to the loop's iteration bound where required), so
    every definition evaluates by `decide` / `rfl`.
-/

/-! ## Basic list helpers (index-preserving tagging and point updates) -/

/-- Tag each element of a list with its index, starting at `i`. -/
def tagIdx {α : Type} : Nat → List α → List (Nat × α)
  | _, [] => []
  | i, x :: xs => (i, x) :: tagIdx (i + 1) xs

/-- Point update of a list at an index (`s[i] = f s[i]`); out-of-range is a no-op. -/
def listModify {α : Type} (f : α → α) : Nat → List α → List α
  | _, [] => []
  | 0, x :: xs => f x :: xs
  | n + 1, x :: xs => x :: listModify f n xs

/-- Stable insertion for a three-way comparator: `x` is placed before the first
element `y` with `cmp x y ≤ 0`, hence after all earlier elements that compare
equal — the placement `slices.SortStableFunc` produces. -/
def insertCmp {α : Type} (cmp : α → α → Int) (x : α) : List α → List α
  | [] => [x]
  | y :: ys => if cmp x y ≤ 0 then x :: y :: ys else y :: insertCmp cmp x ys

/-- Stable sort by a three-way comparator; models `slices.SortStableFunc`. -/
def sortStableCmp {α : Type} (cmp : α → α → Int) : List α → List α
  | [] => []
  | x :: xs => insertCmp cmp x (sortStableCmp cmp xs)

/-- Three-way comparison of integers; models `time.Time#Compare` on the
integer timestamps of the embedding. -/
def cmpInt (a b : Int) : Int := if a < b then -1 else if a = b then 0 else 1

/-! ## Data model

`node` from `node.go` / the `findChild` revision:

```
type node struct {
    name       string
    firstStart time.Time
    start      time.Time
    status     string
    done       bool
    doneTs     time.Time
    children   []*node
    parent     *node
    outputBuf  *bytes.Buffer
    elapsed    time.Duration
    isTest     bool
    lvl        int
    msg        string
}
```

The `parent` back pointer is not stored: in the pure tree it is the prefix
of a node's address. -/

structure NodeData where
  name : String
  firstStart : Int
  start : Int
  status : String
  done : Bool
  doneTs : Int
  outputBuf : Option String
  elapsed : Int
  isTest : Bool
  lvl : Nat
  msg : String
deriving Repr, DecidableEq, Inhabited

inductive Node : Type where
  | node (data : NodeData) (children : List Node)
deriving Repr

def Node.data : Node → NodeData
  | .node d _ => d

def Node.children : Node → List Node
  | .node _ cs => cs

instance : Inhabited Node := ⟨Node.node default []⟩

/-- `TestEvent` from the decoder (`Time`, `Action`, `Package`, `Test`,
`Elapsed`, `Output`); the timestamp is passed separately to the functions
that read the clock. -/
structure TestEvent where
  action : String
  pkg : String
  test : String
  elapsedNs : Int
  out : String
deriving Repr, DecidableEq

/-- The command-line `flags` consulted by `drop`. -/
structure Flags where
  includePassed : Bool
  includeSkipped : Bool
  includeSlow : Bool
  slowThreshold : Int
deriving Repr, DecidableEq

/-- The Model's own state: the root node and the four global counters
(`passes, fails, skips, total int`). -/
structure Model where
  root : Node
  passes : Nat
  fails : Nat
  skips : Nat
  total : Nat

/-- A fresh model: zero-valued root node, zero counters (`newModel`). -/
def model0 : Model :=
  { root := Node.node { name := "", firstStart := 0, start := 0, status := "",
                        done := false, doneTs := 0, outputBuf := none,
                        elapsed := 0, isTest := false, lvl := 0, msg := "" } []
    passes := 0, fails := 0, skips := 0, total := 0 }

/-! ## Tree addressing -/

/-- Fetch the node at an address (child-index path from `t`). -/
def getAt? : List Nat → Node → Option Node
  | [], t => some t
  | i :: rest, .node _ cs => (cs.get? i).bind (getAt? rest)

/-- Rewrite the node at an address with `f`. -/
def updateAt (f : Node → Node) : List Nat → Node → Node
  | [], t => f t
  | i :: rest, .node d cs => .node d (listModify (updateAt f rest) i cs)

/-! ## node.go: the output aggregator -/

/-- Go's `\s` character class: `[\t\n\f\r ]`. -/
def goSpace (c : Char) : Bool :=
  c = '\t' || c = '\n' || c = Char.ofNat 12 || c = '\r' || c = ' '

/-- `(.*)\n` at leftmost-first semantics: `.` cannot cross a newline, so the
greedy run is exactly the text up to the first newline, which must exist. -/
def takeToNL (cs : List Char) : Option String :=
  match cs.dropWhile (· != '\n') with
  | '\n' :: _ => some (String.mk (cs.takeWhile (· != '\n')))
  | _ => none

/-- Character class `[^\s()[\]]`. -/
def brFree (c : Char) : Bool :=
  !goSpace c && c != '(' && c != ')' && c != '[' && c != ']'

/-- `([^\s()[\]]*\s)?(.*)\n`, returning the text captured by `(.*)`.
The greedy inner star can only stop at the end of the maximal bracket-free
run (every earlier stop leaves a non-whitespace character where `\s` is
required), so the backtracking search reduces to: take the maximal run, use
the optional group if the next character is whitespace and the tail matches,
otherwise drop the optional group. -/
def matchTail (cs : List Char) : Option String :=
  (match cs.dropWhile brFree with
   | c :: rest => if goSpace c then takeToNL rest else none
   | [] => none)
  <|> takeToNL cs

/-- `\t\S+\t` followed by `matchTail`.  `\S` cannot match the required `\t`,
so the greedy `\S+` deterministically ends at the first whitespace
character, which must be a tab, and the run must be nonempty. -/
def matchFromTab (cs : List Char) : Option String :=
  match cs with
  | '\t' :: rest =>
    if (rest.takeWhile (fun c => !goSpace c)).isEmpty then none
    else
      match rest.dropWhile (fun c => !goSpace c) with
      | '\t' :: rest2 => matchTail rest2
      | _ => none
  | _ => none

/-- `packageSummaryPattern = ^(.{4})?\t\S+\t([^\s()[\]]*\s)?(.*)\n` from
`node.go`, under Go's leftmost-first submatch semantics, returning the text
of capture group 3 when the pattern matches (`FindStringSubmatch` yields 4
entries exactly when it matches).  `(.{4})?` prefers consuming four
non-newline characters and falls back to the empty alternative. -/
def packageSummaryMatch (s : String) : Option String :=
  let cs := s.toList
  (if 4 ≤ cs.length && (cs.take 4).all (· != '\n') then matchFromTab (cs.drop 4)
   else none)
  <|> matchFromTab cs

/-- `node#append`: lazily allocate the buffer, else write at the end. -/
def Node.append (n : Node) (s : String) : Node :=
  match n.data.outputBuf with
  | none => Node.node { n.data with outputBuf := some s } n.children
  | some b => Node.node { n.data with outputBuf := some (b ++ s) } n.children

/-- `node#prepend`: a fresh buffer holding `s`, with the old contents
written after it. -/
def Node.prepend (n : Node) (s : String) : Node :=
  match n.data.outputBuf with
  | none => Node.node { n.data with outputBuf := some s } n.children
  | some b => Node.node { n.data with outputBuf := some (s ++ b) } n.children

/-- `strings.HasPrefix(s, pre)`, structurally on the exploded strings. -/
def hasPrefixStr (s pre : String) : Bool := pre.toList.isPrefixOf s.toList

/-- `node#output` from `node.go`: at `lvl == 1` a package-summary match sets
`msg` and every group-level line is then discarded; otherwise `===` lines
are skipped, `---` lines are prepended, anything else appended. -/
def Node.output (n : Node) (s : String) : Node :=
  if n.data.lvl = 1 then
    match packageSummaryMatch s with
    | some m => Node.node { n.data with msg := m } n.children
    | none => n
  else if hasPrefixStr s "===" then n
  else if hasPrefixStr s "---" then n.prepend s
  else n.append s

/-! ## Tree builder (`nodeFor` / `findChild`) -/

/-- `strings.Join(parts, "/")`. -/
def joinSlash : List String → String
  | [] => ""
  | [s] => s
  | s :: rest => s ++ "/" ++ joinSlash rest

/-- Inner loop of `findChild`: index of the first child whose `name` equals
`nm`. -/
def findIdxNamed : List Node → String → Option Nat
  | [], _ => none
  | c :: cs, nm =>
    if c.data.name = nm then some 0 else (findIdxNamed cs nm).map (· + 1)

/-- `node#findChild`: for `j = 1, 2, …, len(parts)` look for a child named
after the join of the first `j` parts; the first hit returns the child's
index together with the number `j` of consumed parts. -/
def findChild (cs : List Node) (parts : List String) : Option (Nat × Nat) :=
  (List.range' 1 parts.length).findSome? fun j =>
    (findIdxNamed cs (joinSlash (parts.take j))).map fun i => (i, j)

/-- The node `nodeFor` creates when the remaining `parts` match no child:
one node for the whole remainder, named by the re-joined parts. -/
def freshNode (nm : String) (isT : Bool) (now : Int) (parentLvl : Nat) : Node :=
  Node.node { name := nm, firstStart := now, start := now, status := "",
              done := false, doneTs := 0, outputBuf := none, elapsed := 0,
              isTest := isT, lvl := parentLvl + 1, msg := "" } []

/-- The descent loop of `nodeFor`, returning the rebuilt tree and the
address of the resolved node.  Each iteration consumes at least one name
part, so the loop runs at most `parts.length` times; `fuel` is that bound
(the zero-fuel case with parts left is unreachable at `fuel ≥ parts.length`
and returns the current node). -/
def nodeForAux (isT : Bool) (now : Int) : Nat → Node → List String → Node × List Nat
  | _, n, [] => (n, [])
  | 0, n, _ :: _ => (n, [])
  | fuel + 1, n, p :: ps =>
    match findChild n.children (p :: ps) with
    | some (i, j) =>
      let r := nodeForAux isT now fuel (n.children.getD i default) ((p :: ps).drop j)
      (Node.node n.data (n.children.set i r.1), i :: r.2)
    | none =>
      (Node.node n.data (n.children ++ [freshNode (joinSlash (p :: ps)) isT now n.data.lvl]),
       [n.children.length])

/-- Characters Go's `unicode.IsSpace` accepts in the Latin-1 range (the
only ones a test name can realistically contain). -/
def goUnicodeSpace (c : Char) : Bool :=
  c = ' ' || c = '\t' || c = '\n' || c = Char.ofNat 11 || c = Char.ofNat 12 ||
  c = '\r' || c = Char.ofNat 0x85 || c = Char.ofNat 0xA0

/-- `strings.TrimSpace(s) == ""`. -/
def allSpace (s : String) : Bool := s.toList.all goUnicodeSpace

/-- `strings.Split(s, sep)` for a one-character separator, on the exploded
string (structural, so that it evaluates inside the kernel). -/
def splitChar (sep : Char) : List Char → List String
  | [] => [""]
  | c :: rest =>
    if c = sep then "" :: splitChar sep rest
    else
      match splitChar sep rest with
      | [] => [String.mk [c]]
      | s :: tail => String.mk (c :: s.toList) :: tail

/-- The candidate path segments of an event:
`[Package] + split(Test, "/")`, where a whitespace-only single-segment
`Test` contributes nothing. -/
def TestEvent.parts (ev : TestEvent) : List String :=
  let nameParts := splitChar '/' ev.test.toList
  let nameParts :=
    if nameParts.length = 1 && allSpace (nameParts.headD "") then [] else nameParts
  ev.pkg :: nameParts

/-- `model#nodeFor`: resolve the event to a node, creating at most one new
node for the unmatched remainder. -/
def Model.nodeFor (m : Model) (ev : TestEvent) (now : Int) : Node × List Nat :=
  nodeForAux (ev.test ≠ "") now ev.parts.length m.root ev.parts

/-! ## model.go: drop, sorting, output merging -/

/-- `drop`: whether a finished node is removed from its parent. -/
def drop (fl : Flags) (n : Node) : Bool :=
  if !n.data.isTest then false
  else if fl.includeSlow && decide (fl.slowThreshold < n.data.elapsed) then false
  else if 0 < n.children.length then false
  else if !fl.includeSkipped && n.data.status = "skip" then true
  else if !fl.includePassed && n.data.status = "pass" then true
  else false

/-- `nodeSorter(final)`: droppable nodes last (only when `final`), done
nodes first, done nodes by completion time ascending, running nodes by
first-start time ascending. -/
def nodeSorterCmp (fl : Flags) (final : Bool) (a b : Node) : Int :=
  if final && (drop fl a != drop fl b) then (if drop fl a then 1 else -1)
  else if a.data.done != b.data.done then (if a.data.done then -1 else 1)
  else if a.data.done then cmpInt a.data.doneTs b.data.doneTs
  else cmpInt a.data.firstStart b.data.firstStart

/-- The truncating sweep of `processChildren` when `final`: walk index `i`
from the end to the front of the (shrinking) slice and truncate at every
droppable entry (`s = s[:i]`). -/
def dropSweep (fl : Flags) : Nat → List Node → List Node
  | 0, s => if 0 < s.length && drop fl (s.getD 0 default) then [] else s
  | i + 1, s =>
    dropSweep fl i
      (if i + 1 < s.length && drop fl (s.getD (i + 1) default) then s.take (i + 1) else s)

/-- `processChildren`: stable sort by `nodeSorter(final)`, then (when
`final`) truncate droppable nodes from the end. -/
def processChildren (fl : Flags) (s : List Node) (final : Bool) : List Node :=
  if s.length = 0 then s
  else
    let sorted := sortStableCmp (nodeSorterCmp fl final) s
    if final then dropSweep fl (sorted.length - 1) sorted else sorted

/-- `bufio.ScanLines`: split on `\n`, dropping the trailing empty piece and
one trailing `\r` per line. -/
def scanLines (s : String) : List String :=
  let ps := splitChar '\n' s.toList
  let ps := if ps.getLast? = some "" then ps.dropLast else ps
  ps.map fun l =>
    if l.toList.getLast? = some '\r' then String.mk l.toList.dropLast else l

/-- `copyWithIndent`: append every line of `src`, indented by four spaces
and newline-terminated, to `dst`. -/
def copyWithIndent (src dst : String) : String :=
  dst ++ String.join ((scanLines src).map fun l => "    " ++ l ++ "\n")

/-! ## model.go: processEvent -/

/-- `if ev.Elapsed > 0 { currNode.elapsed = …; currNode.start = time.Time{} }` -/
def applyElapsed (ev : TestEvent) (n : Node) : Node :=
  if 0 < ev.elapsedNs then
    Node.node { n.data with elapsed := ev.elapsedNs, start := 0 } n.children
  else n

/-- The node-local part of `processEvent` for a non-output action: the
elapsed overwrite, `currNode.status = ev.Action`, the action switch, and
the final `processChildren(currNode.children, true)` when the node is done. -/
def applyAction (fl : Flags) (now : Int) (ev : TestEvent) (n0 : Node) : Node :=
  let na := applyElapsed ev n0
  let n1 := Node.node { na.data with status := ev.action } na.children
  let n2 :=
    if ev.action = "fail" || ev.action = "skip" || ev.action = "pass" then
      Node.node { n1.data with done := true, doneTs := now } n1.children
    else if ev.action = "pause" then
      if n1.data.isTest then
        Node.node { n1.data with elapsed := now - n1.data.start, start := now } n1.children
      else n1
    else if ev.action = "cont" then
      Node.node { n1.data with start := now } n1.children
    else n1
  if n2.data.done then Node.node n2.data (processChildren fl n2.children true) else n2

/-- Clear a node's output buffer (`currNode.outputBuf = nil`). -/
def clearBuf (n : Node) : Node :=
  Node.node { n.data with outputBuf := none } n.children

/-- The tail of `processEvent` expressed at the parent `p` of the resolved
node (child index `k`): apply the action to the child, then the
done-with-output logic, then `parent.children = processChildren(…, false)`.
When the finished node is a top-level test the Go code returns the print
command early, skipping both the buffer clear and the parent re-sort. -/
def stepAtParent (fl : Flags) (now : Int) (ev : TestEvent) (k : Nat) (p : Node) : Node :=
  let n4 := applyAction fl now ev (p.children.getD k default)
  if n4.data.done && n4.data.outputBuf.isSome then
    if !(drop fl n4) then
      if p.data.isTest then
        Node.node
          { p.data with
            outputBuf := some (copyWithIndent (n4.data.outputBuf.getD "") (p.data.outputBuf.getD "")) }
          (processChildren fl (p.children.set k (clearBuf n4)) false)
      else
        Node.node p.data (p.children.set k n4)
    else
      Node.node p.data (processChildren fl (p.children.set k (clearBuf n4)) false)
  else
    Node.node p.data (processChildren fl (p.children.set k n4) false)

/-- `model#processEvent`: resolve the node, handle `output` events by
writing the buffer only, otherwise apply the action at the node, bump the
global counters for terminal actions on test nodes, and re-sort the
siblings. -/
def Model.processEvent (fl : Flags) (m : Model) (ev : TestEvent) (now : Int) : Model :=
  let r := m.nodeFor ev now
  if ev.action = "output" then
    { m with root := updateAt (fun n => (applyElapsed ev n).output ev.out) r.2 r.1 }
  else
    let isT := ((getAt? r.2 r.1).getD default).data.isTest
    { root := updateAt (stepAtParent fl now ev (r.2.getLastD 0)) r.2.dropLast r.1
      passes := m.passes + (if ev.action = "pass" && isT then 1 else 0)
      fails := m.fails + (if ev.action = "fail" && isT then 1 else 0)
      skips := m.skips + (if ev.action = "skip" && isT then 1 else 0)
      total := m.total +
        (if (ev.action = "pass" || ev.action = "fail" || ev.action = "skip") && isT then 1 else 0) }

/-- Apply a stream of timestamped events in order. -/
def runEvents (fl : Flags) : Model → List (TestEvent × Int) → Model
  | m, [] => m
  | m, (ev, now) :: rest => runEvents fl (m.processEvent fl ev now) rest

/-! ## model.go: elide -/

/-- `statusRank` (primary elision rank). -/
def statusRank (s : String) : Int :=
  if s = "pass" then 1
  else if s = "pause" then 1
  else if s = "skip" then 1
  else if s = "fail" then 5
  else if s = "cont" || s = "start" || s = "run" || s = "bench" then 5
  else 0

/-- `statusRank2` (secondary elision rank). -/
def statusRank2 (s : String) : Int :=
  if s = "pass" then 1
  else if s = "pause" then 1
  else if s = "skip" then 1
  else if s = "fail" then 4
  else if s = "cont" || s = "start" || s = "run" || s = "bench" then 5
  else 0

/-- The elision comparator: status rank ascending, level descending,
secondary rank, completion time, first-start time. -/
def elideCmp (an bn : Node) : Int :=
  if statusRank an.data.status - statusRank bn.data.status ≠ 0 then
    statusRank an.data.status - statusRank bn.data.status
  else if (bn.data.lvl : Int) - (an.data.lvl : Int) ≠ 0 then
    (bn.data.lvl : Int) - (an.data.lvl : Int)
  else if statusRank2 an.data.status - statusRank2 bn.data.status ≠ 0 then
    statusRank2 an.data.status - statusRank2 bn.data.status
  else if cmpInt an.data.doneTs bn.data.doneTs ≠ 0 then
    cmpInt an.data.doneTs bn.data.doneTs
  else if cmpInt an.data.firstStart bn.data.firstStart ≠ 0 then
    cmpInt an.data.firstStart bn.data.firstStart
  else 0

/-- Remove the candidate with original index `idx` from the current list,
together with the contiguous run of strictly deeper entries following it
(`e.Next()` while `lvl > e.lvl`); a candidate no longer in the list is a
no-op, exactly as removing a detached `list.Element`. -/
def removeCand : List (Nat × Node) → Nat → List (Nat × Node)
  | [], _ => []
  | (i, n) :: rest, idx =>
    if i = idx then rest.dropWhile (fun q => n.data.lvl < q.2.data.lvl)
    else (i, n) :: removeCand rest idx

/-- The elision loop: process candidates in rank order while the list is
still longer than the budget. -/
def elideLoop (max : Nat) : List Nat → List (Nat × Node) → List (Nat × Node)
  | [], l => l
  | idx :: cands, l =>
    if l.length ≤ max then l else elideLoop max cands (removeCand l idx)

/-- `elide(l, max)` from `model.go`: when over budget, clamp the budget at
zero, rank every element of the flattened list as a candidate, and remove
candidates (with their descendant runs) until within budget or exhausted. -/
def elide (l : List Node) (max : Int) : List Node :=
  if (l.length : Int) ≤ max then l
  else
    let m : Nat := if max < 0 then 0 else max.toNat
    let tagged := tagIdx 0 l
    let cands := (sortStableCmp (fun a b => elideCmp a.2 b.2) tagged).map Prod.fst
    (elideLoop m cands tagged).map Prod.snd

/-! ## Shared concrete objects for witnesses and counterexamples -/

/-- The default command-line flags
(`include-passed=false include-skipped=true include-slow=false slow-threshold=1s`). -/
def fl0 : Flags :=
  { includePassed := false, includeSkipped := true, includeSlow := false,
    slowThreshold := 1000000000 }

/-- A group-level node (`lvl = 1`) with an empty buffer. -/
def nodeG : Node :=
  Node.node { name := "pkg", firstStart := 0, start := 0, status := "run",
              done := false, doneTs := 0, outputBuf := none, elapsed := 0,
              isTest := false, lvl := 1, msg := "" } []

/-- A leaf test node (`lvl = 2`) with an empty buffer. -/
def nodeT : Node :=
  Node.node { name := "Test1", firstStart := 0, start := 0, status := "run",
              done := false, doneTs := 0, outputBuf := none, elapsed := 0,
              isTest := true, lvl := 2, msg := "" } []

/-! ## String helper lemmas -/

theorem stringAppendData (a b : String) : a ++ b = String.mk (a.toList ++ b.toList) := by
  cases a; cases b; rfl

theorem stringAppendAssoc (a b c : String) : a ++ b ++ c = a ++ (b ++ c) := by
  cases a; cases b; cases c
  simp [stringAppendData, List.append_assoc]

theorem stringAppendEmpty (a : String) : a ++ "" = a := by
  cases a; simp [stringAppendData]

theorem stringEmptyAppend (a : String) : "" ++ a = a := by
  cases a; simp [stringAppendData]

/-! ## C7: leaf-level output classification -/

/-- **C7.** For every non-group node (`lvl ≠ 1`): a line with the `===`
structural marker is discarded and leaves the node (hence its buffer)
unchanged; a line with the `---` completion-header marker is prepended to
the front of the buffer (so a completion header delivered after body text
precedes the body); every other line is appended at the end, and a
sequence of ordinary lines accumulates in arrival order. -/
theorem c7_leaf_output_classification (n : Node) (s : String) (h : n.data.lvl ≠ 1) :
    (hasPrefixStr s "===" = true → n.output s = n)
    ∧ (hasPrefixStr s "===" = false → hasPrefixStr s "---" = true →
        n.output s =
          Node.node { n.data with outputBuf := some (s ++ n.data.outputBuf.getD "") } n.children)
    ∧ (hasPrefixStr s "===" = false → hasPrefixStr s "---" = false →
        n.output s =
          Node.node { n.data with outputBuf := some (n.data.outputBuf.getD "" ++ s) } n.children)
    ∧ (∀ ls : List String, ls ≠ [] →
        (∀ x ∈ ls, hasPrefixStr x "===" = false ∧ hasPrefixStr x "---" = false) →
        (ls.foldl Node.output n).data.outputBuf =
          some (n.data.outputBuf.getD "" ++ String.join ls)) := by
  have happend : ∀ m : Node, m.data.lvl ≠ 1 → ∀ t, hasPrefixStr t "===" = false →
      hasPrefixStr t "---" = false →
      m.output t =
        Node.node { m.data with outputBuf := some (m.data.outputBuf.getD "" ++ t) } m.children := by
    intro m hm t h1 h2
    unfold Node.output Node.append
    rw [if_neg hm, h1, h2]
    simp only [Bool.false_eq_true, if_false]
    cases hb : m.data.outputBuf with
    | none => simp [hb, stringEmptyAppend]
    | some b => simp [hb]
  refine ⟨?_, ?_, ?_, ?_⟩
  · intro h1
    unfold Node.output
    rw [if_neg h, h1]
    simp
  · intro h1 h2
    unfold Node.output Node.prepend
    rw [if_neg h, h1, h2]
    simp only [Bool.false_eq_true, if_false, if_true]
    cases hb : n.data.outputBuf with
    | none => simp [hb, stringAppendEmpty]
    | some b => simp [hb]
  · intro h1 h2
    exact happend n h s h1 h2
  · intro ls
    induction ls generalizing n with
    | nil => intro hne; exact absurd rfl hne
    | cons x xs ih =>
      intro _ hall
      have hx := hall x (List.mem_cons_self x xs)
      have hstep := happend n h x hx.1 hx.2
      cases xs with
      | nil =>
        simp only [List.foldl_cons, List.foldl_nil, hstep, Node.data, String.join,
          List.foldl_cons, List.foldl_nil]
        rw [stringEmptyAppend]
      | cons y ys =>
        have hlvl2 : (n.output x).data.lvl ≠ 1 := by
          rw [hstep]; exact h
        have := ih (n.output x) hlvl2 (by simp) (fun z hz => hall z (List.mem_cons_of_mem x hz))
        simp only [List.foldl_cons] at this ⊢
        rw [this, hstep]
        simp only [Node.data, Option.getD_some]
        rw [stringAppendAssoc]
        congr 1
        congr 1
        symm
        show String.join (x :: y :: ys) = x ++ String.join (y :: ys)
        simp only [String.join, List.foldl_cons]
        have : ∀ (l : List String) (a b : String),
            l.foldl (· ++ ·) (a ++ b) = a ++ l.foldl (· ++ ·) b := by
          intro l
          induction l with
          | nil => intro a b; rfl
          | cons c cs ihc =>
            intro a b
            simp only [List.foldl_cons]
            rw [stringAppendAssoc, ihc]
        rw [stringEmptyAppend, ← this, stringEmptyAppend]

/-- Witness for C7 at concrete inputs: a lvl-2 node, a body line followed by
a `---` completion header; the header ends up in front. -/
theorem c7_witness :
    (hasPrefixStr "--- FAIL: Test1 (0.00s)\n" "===" = false
      ∧ hasPrefixStr "--- FAIL: Test1 (0.00s)\n" "---" = true)
    ∧ (nodeT.output "body\n").output "--- FAIL: Test1 (0.00s)\n" =
        Node.node { nodeT.data with
          outputBuf := some ("--- FAIL: Test1 (0.00s)\n" ++ (nodeT.output "body\n").data.outputBuf.getD "") }
          (nodeT.output "body\n").children := by
  refine ⟨⟨by decide, by decide⟩, ?_⟩
  have h := c7_leaf_output_classification (nodeT.output "body\n") "--- FAIL: Test1 (0.00s)\n" (by decide)
  exact h.2.1 (by decide) (by decide)

/-! ## C8: group-level output -/

/-- **C8 (amended).** For every group-level node (`lvl = 1`): a line
matching the package-summary pattern stores the extracted trailing message
into `msg` and the raw text is discarded; every non-matching group-level
line (bare `PASS`/`FAIL`/`SKIP` markers and coverage lines included) is
discarded outright, leaving the node unchanged; the output buffer of a
group-level node is never written by `output`. -/
theorem c8_group_output (n : Node) (s : String) (h : n.data.lvl = 1) :
    (∀ m, packageSummaryMatch s = some m →
        n.output s = Node.node { n.data with msg := m } n.children)
    ∧ (packageSummaryMatch s = none → n.output s = n)
    ∧ (n.output s).data.outputBuf = n.data.outputBuf := by
  refine ⟨?_, ?_, ?_⟩
  · intro m hm
    unfold Node.output
    rw [if_pos h, hm]
  · intro hm
    unfold Node.output
    rw [if_pos h, hm]
  · unfold Node.output
    rw [if_pos h]
    cases hm : packageSummaryMatch s <;> simp [Node.data]

/-- Counterexample for C8 as stated: `"sample line\n"` is a group-level
line that matches no package-summary pattern, is no bare result marker and
no coverage line, yet it is **discarded**, not appended: the buffer stays
empty instead of receiving the text. -/
theorem c8_counterexample :
    packageSummaryMatch "sample line\n" = none
    ∧ hasPrefixStr "sample line\n" "coverage: " = false
    ∧ "sample line\n" ≠ "PASS\n" ∧ "sample line\n" ≠ "FAIL\n" ∧ "sample line\n" ≠ "SKIP\n"
    ∧ nodeG.data.lvl = 1
    ∧ (nodeG.output "sample line\n").data.outputBuf = none
    ∧ (nodeG.output "sample line\n").data.outputBuf ≠
        some (nodeG.data.outputBuf.getD "" ++ "sample line\n") := by
  refine ⟨by decide, by decide, by decide, by decide, by decide, by decide, by decide, by decide⟩

/-- Witness for C8 at a concrete matching summary line. -/
theorem c8_witness :
    packageSummaryMatch "ok  \tsome/pkg\t0.946s\tcoverage: 80.0% of statements\n" =
      some "coverage: 80.0% of statements"
    ∧ nodeG.output "ok  \tsome/pkg\t0.946s\tcoverage: 80.0% of statements\n" =
        Node.node { nodeG.data with msg := "coverage: 80.0% of statements" } nodeG.children := by
  refine ⟨by decide, ?_⟩
  exact (c8_group_output nodeG _ (by decide)).1 "coverage: 80.0% of statements" (by decide)

/-! ## C1: global counters -/

/-- The terminal actions `pass | fail | skip`. -/
def isTerminal (a : String) : Bool := a = "pass" || a = "fail" || a = "skip"

/-- `isTest` of the node an event resolves to (after lazy creation). -/
def resolvedIsTest (m : Model) (ev : TestEvent) (now : Int) : Bool :=
  ((getAt? (m.nodeFor ev now).2 (m.nodeFor ev now).1).getD default).data.isTest

theorem processEvent_passes (fl : Flags) (m : Model) (ev : TestEvent) (now : Int) :
    (m.processEvent fl ev now).passes =
      m.passes + (if ev.action = "pass" && resolvedIsTest m ev now then 1 else 0) := by
  unfold Model.processEvent resolvedIsTest
  by_cases h : ev.action = "output" <;> simp [h]

theorem processEvent_fails (fl : Flags) (m : Model) (ev : TestEvent) (now : Int) :
    (m.processEvent fl ev now).fails =
      m.fails + (if ev.action = "fail" && resolvedIsTest m ev now then 1 else 0) := by
  unfold Model.processEvent resolvedIsTest
  by_cases h : ev.action = "output" <;> simp [h]

theorem processEvent_skips (fl : Flags) (m : Model) (ev : TestEvent) (now : Int) :
    (m.processEvent fl ev now).skips =
      m.skips + (if ev.action = "skip" && resolvedIsTest m ev now then 1 else 0) := by
  unfold Model.processEvent resolvedIsTest
  by_cases h : ev.action = "output" <;> simp [h]

theorem processEvent_total (fl : Flags) (m : Model) (ev : TestEvent) (now : Int) :
    (m.processEvent fl ev now).total =
      m.total + (if isTerminal ev.action && resolvedIsTest m ev now then 1 else 0) := by
  unfold Model.processEvent resolvedIsTest isTerminal
  by_cases h : ev.action = "output" <;> simp [h]

/-- One step preserves `total = passes + fails + skips`. -/
theorem processEvent_counter_inv (fl : Flags) (m : Model) (ev : TestEvent) (now : Int)
    (h : m.total = m.passes + m.fails + m.skips) :
    (m.processEvent fl ev now).total =
      (m.processEvent fl ev now).passes + (m.processEvent fl ev now).fails +
        (m.processEvent fl ev now).skips := by
  rw [processEvent_passes, processEvent_fails, processEvent_skips, processEvent_total,
    isTerminal]
  by_cases h1 : ev.action = "pass" <;>
    by_cases h2 : ev.action = "fail" <;>
      by_cases h3 : ev.action = "skip" <;>
        first
          | (exact absurd (h1 ▸ h2) (by decide))
          | (exact absurd (h1 ▸ h3) (by decide))
          | (exact absurd (h2 ▸ h3) (by decide))
          | (cases hT : resolvedIsTest m ev now <;> simp [h1, h2, h3, hT] <;> omega)

theorem runEvents_counter_inv (fl : Flags) (evs : List (TestEvent × Int)) :
    ∀ m : Model, m.total = m.passes + m.fails + m.skips →
      (runEvents fl m evs).total =
        (runEvents fl m evs).passes + (runEvents fl m evs).fails + (runEvents fl m evs).skips := by
  induction evs with
  | nil => intro m h; exact h
  | cons p rest ih =>
    intro m h
    exact ih (m.processEvent fl p.1 p.2) (processEvent_counter_inv fl m p.1 p.2 h)

/-- **C1.** For every event stream applied through `processEvent` from a
fresh model, `total = passes + fails + skips` holds at every point (every
prefix of the stream is itself a stream); a terminal action resolving to a
test (leaf) node bumps `total` and exactly the matching one of
`passes`/`fails`/`skips` by one; a terminal action on a non-leaf node, and
any non-terminal action, changes no counter. -/
theorem c1_global_counter_invariant (fl : Flags) (evs : List (TestEvent × Int))
    (m : Model) (ev : TestEvent) (now : Int) :
    ((runEvents fl model0 evs).total =
      (runEvents fl model0 evs).passes + (runEvents fl model0 evs).fails +
        (runEvents fl model0 evs).skips)
    ∧ (isTerminal ev.action = true → resolvedIsTest m ev now = true →
        (m.processEvent fl ev now).total = m.total + 1
        ∧ (m.processEvent fl ev now).passes + (m.processEvent fl ev now).fails +
            (m.processEvent fl ev now).skips = m.passes + m.fails + m.skips + 1
        ∧ (ev.action = "pass" → (m.processEvent fl ev now).passes = m.passes + 1
            ∧ (m.processEvent fl ev now).fails = m.fails
            ∧ (m.processEvent fl ev now).skips = m.skips)
        ∧ (ev.action = "fail" → (m.processEvent fl ev now).fails = m.fails + 1
            ∧ (m.processEvent fl ev now).passes = m.passes
            ∧ (m.processEvent fl ev now).skips = m.skips)
        ∧ (ev.action = "skip" → (m.processEvent fl ev now).skips = m.skips + 1
            ∧ (m.processEvent fl ev now).passes = m.passes
            ∧ (m.processEvent fl ev now).fails = m.fails))
    ∧ (isTerminal ev.action = true → resolvedIsTest m ev now = false →
        (m.processEvent fl ev now).passes = m.passes
        ∧ (m.processEvent fl ev now).fails = m.fails
        ∧ (m.processEvent fl ev now).skips = m.skips
        ∧ (m.processEvent fl ev now).total = m.total)
    ∧ (isTerminal ev.action = false →
        (m.processEvent fl ev now).passes = m.passes
        ∧ (m.processEvent fl ev now).fails = m.fails
        ∧ (m.processEvent fl ev now).skips = m.skips
        ∧ (m.processEvent fl ev now).total = m.total) := by
  refine ⟨runEvents_counter_inv fl evs model0 rfl, ?_, ?_, ?_⟩
  · intro hterm hT
    have hp := processEvent_passes fl m ev now
    have hf := processEvent_fails fl m ev now
    have hs := processEvent_skips fl m ev now
    have ht := processEvent_total fl m ev now
    rw [hterm, Bool.true_and] at ht
    rw [hT] at hp hf hs ht
    simp only [Bool.and_true, if_true] at ht
    have hterm' := hterm
    unfold isTerminal at hterm'
    refine ⟨ht, ?_, ?_, ?_, ?_⟩
    · by_cases h1 : ev.action = "pass" <;>
        by_cases h2 : ev.action = "fail" <;>
          by_cases h3 : ev.action = "skip" <;>
            first
              | (exact absurd (h1 ▸ h2) (by decide))
              | (exact absurd (h1 ▸ h3) (by decide))
              | (exact absurd (h2 ▸ h3) (by decide))
              | (simp [h1, h2, h3] at hterm' ⊢ <;> simp [hp, hf, hs, h1, h2, h3] <;> omega)
    · intro h1
      have h2 : ev.action = "fail" → False := fun h2 => by exact absurd (h1 ▸ h2) (by decide)
      have h3 : ev.action = "skip" → False := fun h3 => by exact absurd (h1 ▸ h3) (by decide)
      simp [hp, hf, hs, h1, h2, h3]
    · intro h2
      have h1 : ev.action = "pass" → False := fun h1 => by exact absurd (h1 ▸ h2) (by decide)
      have h3 : ev.action = "skip" → False := fun h3 => by exact absurd (h2 ▸ h3) (by decide)
      simp [hp, hf, hs, h1, h2, h3]
    · intro h3
      have h1 : ev.action = "pass" → False := fun h1 => by exact absurd (h1 ▸ h3) (by decide)
      have h2 : ev.action = "fail" → False := fun h2 => by exact absurd (h2 ▸ h3) (by decide)
      simp [hp, hf, hs, h1, h2, h3]
  · intro _ hT
    have hp := processEvent_passes fl m ev now
    have hf := processEvent_fails fl m ev now
    have hs := processEvent_skips fl m ev now
    have ht := processEvent_total fl m ev now
    rw [hT] at hp hf hs ht
    simp at hp hf hs ht
    exact ⟨hp, hf, hs, ht⟩
  · intro hterm
    have hp := processEvent_passes fl m ev now
    have hf := processEvent_fails fl m ev now
    have hs := processEvent_skips fl m ev now
    have ht := processEvent_total fl m ev now
    rw [hterm] at ht
    have hterm' := hterm
    unfold isTerminal at hterm'
    have h1 : (ev.action = "pass") = False := by
      simp only [Bool.or_eq_false_iff, decide_eq_false_iff_not] at hterm'
      simp [hterm'.1.1]
    have h2 : (ev.action = "fail") = False := by
      simp only [Bool.or_eq_false_iff, decide_eq_false_iff_not] at hterm'
      simp [hterm'.1.2]
    have h3 : (ev.action = "skip") = False := by
      simp only [Bool.or_eq_false_iff, decide_eq_false_iff_not] at hterm'
      simp [hterm'.2]
    simp [h1, h2, h3] at hp hf hs
    simp at ht
    exact ⟨hp, hf, hs, ht⟩

/-- Package-level and test-level `run` events, then a terminal `pass`, used
to instantiate the counter theorems. -/
def evRunPkg : TestEvent := { action := "run", pkg := "p", test := "", elapsedNs := 0, out := "" }

def evRunT : TestEvent := { action := "run", pkg := "p", test := "T", elapsedNs := 0, out := "" }

def evPassT : TestEvent := { action := "pass", pkg := "p", test := "T", elapsedNs := 0, out := "" }

/-- A model holding the running test `p/T`. -/
def modelW : Model := runEvents fl0 model0 [(evRunPkg, 0), (evRunT, 0)]

/-- Witness for C1 at a concrete stream and a concrete terminal event. -/
theorem c1_witness :
    ((runEvents fl0 model0 [(evRunPkg, 0), (evRunT, 0), (evPassT, 1)]).total =
      (runEvents fl0 model0 [(evRunPkg, 0), (evRunT, 0), (evPassT, 1)]).passes +
        (runEvents fl0 model0 [(evRunPkg, 0), (evRunT, 0), (evPassT, 1)]).fails +
        (runEvents fl0 model0 [(evRunPkg, 0), (evRunT, 0), (evPassT, 1)]).skips)
    ∧ isTerminal evPassT.action = true
    ∧ resolvedIsTest modelW evPassT 1 = true
    ∧ (modelW.processEvent fl0 evPassT 1).total = modelW.total + 1
    ∧ (modelW.processEvent fl0 evPassT 1).passes = modelW.passes + 1 := by
  have h := c1_global_counter_invariant fl0 [(evRunPkg, 0), (evRunT, 0), (evPassT, 1)]
    modelW evPassT 1
  have h2 := h.2.1 (by decide) (by decide)
  exact ⟨h.1, by decide, by decide, h2.1, (h2.2.2.1 (by decide)).1⟩

/-! ## C4: elide respects the row budget -/

theorem mem_insertCmp {α : Type} (cmp : α → α → Int) (x a : α) (l : List α) :
    a ∈ insertCmp cmp x l ↔ a = x ∨ a ∈ l := by
  induction l with
  | nil => simp [insertCmp]
  | cons y ys ih =>
    unfold insertCmp
    by_cases h : cmp x y ≤ 0
    · simp [h]
    · simp only [h, if_false, List.mem_cons, ih]
      tauto

theorem sortStableCmp_perm {α : Type} (cmp : α → α → Int) (l : List α) :
    (sortStableCmp cmp l).Perm l := by
  induction l with
  | nil => simp [sortStableCmp]
  | cons x xs ih =>
    have hins : ∀ (t : List α), (insertCmp cmp x t).Perm (x :: t) := by
      intro t
      induction t with
      | nil => simp [insertCmp]
      | cons y ys ihy =>
        unfold insertCmp
        by_cases h : cmp x y ≤ 0
        · simp [h]
        · simp only [h, if_false]
          exact ((ihy.cons y).trans (List.Perm.swap x y ys))
    exact (hins (sortStableCmp cmp xs)).trans (ih.cons x)

theorem mem_sortStableCmp {α : Type} (cmp : α → α → Int) (a : α) (l : List α) :
    a ∈ sortStableCmp cmp l ↔ a ∈ l :=
  (sortStableCmp_perm cmp l).mem_iff

theorem tagIdx_map_snd {α : Type} (i : Nat) (l : List α) :
    (tagIdx i l).map Prod.snd = l := by
  induction l generalizing i with
  | nil => rfl
  | cons x xs ih => simp [tagIdx, ih]

theorem tagIdx_fst_ge {α : Type} (i : Nat) (l : List α) :
    ∀ p ∈ tagIdx i l, i ≤ p.1 := by
  induction l generalizing i with
  | nil => intro p hp; cases hp
  | cons x xs ih =>
    intro p hp
    cases hp with
    | head => exact Nat.le_refl i
    | tail _ hp => exact Nat.le_trans (Nat.le_succ i) (ih (i + 1) p hp)

theorem tagIdx_fst_nodup {α : Type} (i : Nat) (l : List α) :
    ((tagIdx i l).map Prod.fst).Nodup := by
  induction l generalizing i with
  | nil => simp [tagIdx]
  | cons x xs ih =>
    simp only [tagIdx, List.map_cons, List.nodup_cons]
    refine ⟨?_, ih (i + 1)⟩
    intro hmem
    obtain ⟨p, hp, hfst⟩ := List.mem_map.mp hmem
    have := tagIdx_fst_ge (i + 1) xs p hp
    omega

theorem removeCand_sublist (l : List (Nat × Node)) (idx : Nat) :
    (removeCand l idx).Sublist l := by
  induction l with
  | nil => simp [removeCand]
  | cons p rest ih =>
    obtain ⟨i, n⟩ := p
    unfold removeCand
    by_cases h : i = idx
    · simp only [h, if_pos rfl]
      exact (List.dropWhile_sublist _).trans (List.sublist_cons_self _ _)
    · simp only [h, if_false]
      exact ih.cons₂ _

theorem removeCand_fst_ne (l : List (Nat × Node)) (idx : Nat)
    (hnd : (l.map Prod.fst).Nodup) :
    ∀ p ∈ removeCand l idx, p.1 ≠ idx := by
  induction l with
  | nil => intro p hp; cases hp
  | cons q rest ih =>
    obtain ⟨i, n⟩ := q
    simp only [List.map_cons, List.nodup_cons] at hnd
    unfold removeCand
    by_cases h : i = idx
    · simp only [h, if_pos rfl]
      intro p hp
      have hmem : p ∈ rest := (List.dropWhile_sublist _).subset hp
      intro hcon
      apply hnd.1
      rw [h, ← hcon]
      exact List.mem_map.mpr ⟨p, hmem, rfl⟩
    · simp only [h, if_false]
      intro p hp
      cases hp with
      | head => exact h
      | tail _ hp => exact ih hnd.2 p hp

theorem elideLoop_stop (m : Nat) (cands : List Nat) (l : List (Nat × Node))
    (h : l.length ≤ m) : elideLoop m cands l = l := by
  cases cands with
  | nil => rfl
  | cons idx rest => unfold elideLoop; rw [if_pos h]

theorem elideLoop_sublist (m : Nat) (cands : List Nat) (l : List (Nat × Node)) :
    (elideLoop m cands l).Sublist l := by
  induction cands generalizing l with
  | nil => simp [elideLoop]
  | cons idx rest ih =>
    unfold elideLoop
    by_cases h : l.length ≤ m
    · simp [h]
    · simp only [h, if_false]
      exact (ih (removeCand l idx)).trans (removeCand_sublist l idx)

theorem elideLoop_length (m : Nat) (cands : List Nat) :
    ∀ l : List (Nat × Node), (∀ p ∈ l, p.1 ∈ cands) → (l.map Prod.fst).Nodup →
      (elideLoop m cands l).length ≤ m := by
  induction cands with
  | nil =>
    intro l hall _
    cases l with
    | nil => simp [elideLoop]
    | cons p rest => exact absurd (hall p (List.mem_cons_self p rest)) (by simp)
  | cons idx rest ih =>
    intro l hall hnd
    unfold elideLoop
    by_cases h : l.length ≤ m
    · simp [h]
    · simp only [h, if_false]
      refine ih (removeCand l idx) ?_ ?_
      · intro p hp
        have hl : p ∈ l := (removeCand_sublist l idx).subset hp
        have := hall p hl
        cases List.mem_cons.mp this with
        | inl hq => exact absurd hq (removeCand_fst_ne l idx hnd p hp)
        | inr hq => exact hq
      · exact ((removeCand_sublist l idx).map Prod.fst).nodup hnd

/-- **C4.** `elide` and its loop: (1) the surviving flattened list always
fits the (zero-clamped) row budget — in this revision every element is an
eligible candidate, so "enough eligible candidates" always holds; (2) a
list already within budget is returned untouched; (3) the loop stops as
soon as the count is within budget — processing a candidate only starts
while the list is still over budget; (4) elision only removes elements
(the result is a sublist of the flattening); (5) removing a candidate also
removes exactly the contiguous run of strictly deeper entries that follows
it. -/
theorem c4_elide_budget (l : List Node) (mx : Int) (cands : List Nat)
    (l2 : List (Nat × Node)) (m : Nat) (pre post : List (Nat × Node))
    (idx : Nat) (n : Node) :
    (((elide l mx).length : Int) ≤ mx ⊔ 0)
    ∧ ((l.length : Int) ≤ mx → elide l mx = l)
    ∧ (l2.length ≤ m → elideLoop m cands l2 = l2)
    ∧ (elide l mx).Sublist l
    ∧ ((∀ p ∈ pre, p.1 ≠ idx) →
        removeCand (pre ++ (idx, n) :: post) idx =
          pre ++ post.dropWhile (fun q => n.data.lvl < q.2.data.lvl)) := by
  refine ⟨?_, ?_, fun h => elideLoop_stop m cands l2 h, ?_, ?_⟩
  · unfold elide
    by_cases h : (l.length : Int) ≤ mx
    · rw [if_pos h]
      omega
    · rw [if_neg h]
      simp only [List.length_map]
      have hlen := elideLoop_length (if mx < 0 then 0 else mx.toNat)
        ((sortStableCmp (fun a b => elideCmp a.2 b.2) (tagIdx 0 l)).map Prod.fst)
        (tagIdx 0 l)
        (fun p hp => List.mem_map.mpr
          ⟨p, (mem_sortStableCmp _ p (tagIdx 0 l)).mpr hp, rfl⟩)
        (tagIdx_fst_nodup 0 l)
      by_cases hneg : mx < 0 <;> simp only [hneg, if_true, if_false] at hlen ⊢ <;> omega
  · intro h
    unfold elide
    rw [if_pos h]
  · unfold elide
    by_cases h : (l.length : Int) ≤ mx
    · rw [if_pos h]
    · rw [if_neg h]
      have h1 := (elideLoop_sublist (if mx < 0 then 0 else mx.toNat)
        ((sortStableCmp (fun a b => elideCmp a.2 b.2) (tagIdx 0 l)).map Prod.fst)
        (tagIdx 0 l)).map Prod.snd
      rw [tagIdx_map_snd] at h1
      exact h1
  · intro hpre
    induction pre with
    | nil => simp [removeCand]
    | cons q qre ihq =>
      obtain ⟨i, w⟩ := q
      have hi : i ≠ idx := hpre (i, w) (List.mem_cons_self _ _)
      simp only [List.cons_append]
      unfold removeCand
      rw [if_neg hi]
      rw [ihq (fun p hp => hpre p (List.mem_cons_of_mem _ hp))]

/-- Witness for C4 at concrete inputs: a five-row flattening with a budget
of four removes the ranked-first finished candidate together with its two
deeper descendants. -/
theorem c4_witness :
    (((elide [nodeG, nodeT, nodeT, nodeT, nodeG] 4).length : Int) ≤ (4 : Int) ⊔ 0)
    ∧ ((([nodeG, nodeT] : List Node).length : Int) ≤ (7 : Int) →
        elide [nodeG, nodeT] 7 = [nodeG, nodeT])
    ∧ (([(0, nodeG), (1, nodeT)] : List (Nat × Node)).length ≤ 3 →
        elideLoop 3 [1, 0] [(0, nodeG), (1, nodeT)] = [(0, nodeG), (1, nodeT)])
    ∧ (elide [nodeG, nodeT, nodeT, nodeT, nodeG] 4).Sublist [nodeG, nodeT, nodeT, nodeT, nodeG]
    ∧ ((∀ p ∈ ([(0, nodeG)] : List (Nat × Node)), p.1 ≠ 1) →
        removeCand [(0, nodeG), (1, nodeT), (2, nodeT)] 1 =
          [(0, nodeG)] ++ [(2, nodeT)].dropWhile (fun q => nodeT.data.lvl < q.2.data.lvl)) := by
  have h := c4_elide_budget [nodeG, nodeT, nodeT, nodeT, nodeG] 4 [1, 0]
    [(0, nodeG), (1, nodeT)] 3 [(0, nodeG)] [(2, nodeT)] 1 nodeT
  refine ⟨h.1, ?_, h.2.2.1, h.2.2.2.1, h.2.2.2.2⟩
  intro hl
  exact (c4_elide_budget [nodeG, nodeT] 7 [] [] 0 [] [] 0 nodeT).2.1 hl

/-! ## C3: a slash-bearing remainder creates exactly one node -/

/-- Number of nodes in a forest. -/
def countNodesL : List Node → Nat
  | [] => 0
  | .node _ cs :: rest => 1 + countNodesL cs + countNodesL rest

/-- Number of nodes in a tree. -/
def countNodes (n : Node) : Nat := 1 + countNodesL n.children

theorem countNodesL_cons (d : NodeData) (cs rest : List Node) :
    countNodesL (.node d cs :: rest) = countNodes (.node d cs) + countNodesL rest := by
  simp [countNodesL, countNodes, Node.children]

theorem countNodesL_append (a b : List Node) :
    countNodesL (a ++ b) = countNodesL a + countNodesL b := by
  induction a with
  | nil => simp [countNodesL]
  | cons x rest ih =>
    cases x with
    | node d cs =>
      simp only [List.cons_append, countNodesL_cons, ih]
      omega

theorem countNodesL_set (cs : List Node) :
    ∀ (i : Nat) (x : Node), i < cs.length →
      countNodesL (cs.set i x) + countNodes (cs.getD i default) =
        countNodesL cs + countNodes x := by
  induction cs with
  | nil => intro i x h; cases h
  | cons c rest ih =>
    intro i x h
    cases i with
    | zero =>
      cases c with
      | node d ccs =>
        cases x with
        | node e xcs =>
          simp only [List.set, List.getD, List.get?, countNodesL_cons, Option.getD_some]
          omega
    | succ i =>
      cases c with
      | node d ccs =>
        simp only [List.set, List.getD, List.get?, countNodesL_cons] at *
        have := ih i x (by simpa using Nat.lt_of_succ_lt_succ h)
        simp only [List.getD] at this
        omega

theorem findIdxNamed_lt (cs : List Node) (nm : String) :
    ∀ i, findIdxNamed cs nm = some i → i < cs.length := by
  induction cs with
  | nil => intro i h; simp [findIdxNamed] at h
  | cons c rest ih =>
    intro i h
    unfold findIdxNamed at h
    by_cases hc : c.data.name = nm
    · rw [if_pos hc] at h
      cases h
      simp
    · rw [if_neg hc] at h
      cases hi : findIdxNamed rest nm with
      | none => rw [hi] at h; cases h
      | some i' =>
        rw [hi] at h
        cases h
        have := ih i' hi
        simp
        omega

theorem findChild_bounds (cs : List Node) (parts : List String) (i j : Nat)
    (h : findChild cs parts = some (i, j)) :
    i < cs.length ∧ 1 ≤ j ∧ j ≤ parts.length ∧
      findIdxNamed cs (joinSlash (parts.take j)) = some i := by
  unfold findChild at h
  obtain ⟨j', hj'mem, hj'⟩ := List.exists_of_findSome?_eq_some h
  obtain ⟨i', hi', heq⟩ := Option.map_eq_some'.mp hj'
  cases heq
  have hmem := List.mem_range'_1.mp hj'mem
  exact ⟨findIdxNamed_lt cs _ i hi', hmem.1, by omega, hi'⟩

/-- The creation branch of `nodeFor` in closed form: when no prefix join of
the remaining parts names an existing child, exactly one new child is
appended, named by the join of all remaining segments. -/
theorem nodeForAux_create (isT : Bool) (now : Int) (f : Nat) (n : Node)
    (parts : List String) (hne : parts ≠ []) (hnone : findChild n.children parts = none) :
    nodeForAux isT now (f + 1) n parts =
      (Node.node n.data (n.children ++ [freshNode (joinSlash parts) isT now n.data.lvl]),
       [n.children.length]) := by
  cases parts with
  | nil => exact absurd rfl hne
  | cons p ps =>
    unfold nodeForAux
    rw [hnone]

theorem nodeForAux_count (isT : Bool) (now : Int) :
    ∀ (fuel : Nat) (parts : List String) (n : Node),
      countNodes (nodeForAux isT now fuel n parts).1 ≤ countNodes n + 1 := by
  intro fuel
  induction fuel with
  | zero =>
    intro parts n
    cases parts <;> simp [nodeForAux]
  | succ f ih =>
    intro parts n
    cases parts with
    | nil => simp [nodeForAux]
    | cons p ps =>
      unfold nodeForAux
      cases hf : findChild n.children (p :: ps) with
      | some ij =>
        obtain ⟨i, j⟩ := ij
        have hb := findChild_bounds n.children (p :: ps) i j hf
        have hset := countNodesL_set n.children i
          (nodeForAux isT now f (n.children.getD i default) ((p :: ps).drop j)).1 hb.1
        have hih := ih ((p :: ps).drop j) (n.children.getD i default)
        simp only [countNodes, Node.children] at *
        omega
      | none =>
        simp only [countNodes, Node.children, countNodesL_append]
        simp [freshNode, countNodesL]
        omega

/-- The slash-containing test `Test1/has/slash` arriving when `pkg → Test1`
exists but no `Test1/has` node does. -/
def evRunPkg2 : TestEvent := { action := "run", pkg := "pkg", test := "", elapsedNs := 0, out := "" }

def evRunTest1 : TestEvent :=
  { action := "run", pkg := "pkg", test := "Test1", elapsedNs := 0, out := "" }

def evSlash : TestEvent :=
  { action := "run", pkg := "pkg", test := "Test1/has/slash", elapsedNs := 0, out := "" }

/-- The model after `pkg` and `pkg/Test1` have started. -/
def modelS : Model := runEvents fl0 model0 [(evRunPkg2, 0), (evRunTest1, 0)]

/-- **C3.** (1) Whenever no prefix join of the remaining segments matches an
existing child, resolution appends exactly one new child named by the join
of all remaining segments to the deepest matched ancestor, and stops;
(2) any resolution grows the tree by at most one node (never any
intermediate nodes); (3) the spec's scenario: `test="Test1/has/slash"`
against `root → pkg → Test1` resolves to a single new node `"has/slash"`
under `Test1`, at address `[0,0,0]`, the rest of the tree unchanged. -/
theorem c3_slash_remainder (isT : Bool) (now : Int) (f : Nat) (n : Node)
    (parts : List String) (fuel : Nat) :
    (parts ≠ [] → findChild n.children parts = none →
      nodeForAux isT now (f + 1) n parts =
        (Node.node n.data (n.children ++ [freshNode (joinSlash parts) isT now n.data.lvl]),
         [n.children.length]))
    ∧ countNodes (nodeForAux isT now fuel n parts).1 ≤ countNodes n + 1
    ∧ (modelS.nodeFor evSlash 5).2 = [0, 0, 0]
    ∧ (modelS.nodeFor evSlash 5).1 =
        updateAt (fun x => Node.node x.data (x.children ++ [freshNode "has/slash" true 5 2]))
          [0, 0] modelS.root := by
  refine ⟨fun hne hnone => nodeForAux_create isT now f n parts hne hnone,
    nodeForAux_count isT now fuel parts n, by decide, by rfl⟩

/-- Witness for C3: the creation branch applied concretely — resolving
`A/B` below the bare root of `modelW` (which only knows `p → T`) under a
child list with no matching prefix join. -/
theorem c3_witness :
    (["A", "B"] : List String) ≠ []
    ∧ findChild (Node.node nodeG.data [nodeT]).children ["A", "B"] = none
    ∧ nodeForAux true 9 2 (Node.node nodeG.data [nodeT]) ["A", "B"] =
        (Node.node nodeG.data ([nodeT] ++ [freshNode (joinSlash ["A", "B"]) true 9 1]),
         [1]) := by
  refine ⟨by decide, by decide, ?_⟩
  have h := (c3_slash_remainder true 9 1 (Node.node nodeG.data [nodeT]) ["A", "B"] 0).1
    (by decide) (by decide)
  simpa [Node.data, Node.children, nodeG] using h

/-! ## C2: resolution is idempotent -/

theorem joinSlash_cons (x : String) (xs : List String) (h : xs ≠ []) :
    joinSlash (x :: xs) = x ++ "/" ++ joinSlash xs := by
  cases xs with
  | nil => exact absurd rfl h
  | cons y yt => rfl

theorem joinSlash_append (xs ys : List String) (hx : xs ≠ []) (hy : ys ≠ []) :
    joinSlash (xs ++ ys) = joinSlash xs ++ "/" ++ joinSlash ys := by
  induction xs with
  | nil => exact absurd rfl hx
  | cons x xt ih =>
    cases xt with
    | nil =>
      show joinSlash (x :: ys) = joinSlash [x] ++ "/" ++ joinSlash ys
      rw [joinSlash_cons x ys hy]
      rfl
    | cons x2 xt2 =>
      show joinSlash (x :: ((x2 :: xt2) ++ ys)) = _
      rw [joinSlash_cons x ((x2 :: xt2) ++ ys) (by simp),
        joinSlash_cons x (x2 :: xt2) (by simp), ih (by simp)]
      rw [stringAppendAssoc (x ++ "/"), stringAppendAssoc (x ++ "/")]

theorem joinSlash_take_ne (parts : List String) (j : Nat)
    (h1 : 1 ≤ j) (h2 : j < parts.length) :
    joinSlash (parts.take j) ≠ joinSlash parts := by
  intro heq
  have hsplit : parts = parts.take j ++ parts.drop j := (List.take_append_drop j parts).symm
  have htake : parts.take j ≠ [] := by
    have hl : (parts.take j).length = j := List.length_take_of_le (by omega)
    intro hcon
    rw [hcon] at hl
    simp at hl
    omega
  have hdrop : parts.drop j ≠ [] := by
    have hl : (parts.drop j).length = parts.length - j := List.length_drop j parts
    intro hcon
    rw [hcon] at hl
    simp at hl
    omega
  have hjoin := joinSlash_append (parts.take j) (parts.drop j) htake hdrop
  rw [← hsplit] at hjoin
  have hlen := congrArg String.length (heq.trans hjoin)
  rw [String.length_append, String.length_append] at hlen
  have hone : ("/" : String).length = 1 := rfl
  omega

/-- `nodeFor` never changes the data record of the node it starts from. -/
theorem nodeForAux_data (isT : Bool) (now : Int) (fuel : Nat) (n : Node)
    (parts : List String) :
    (nodeForAux isT now fuel n parts).1.data = n.data := by
  cases fuel with
  | zero => cases parts <;> rfl
  | succ f =>
    cases parts with
    | nil => rfl
    | cons p ps =>
      unfold nodeForAux
      cases hf : findChild n.children (p :: ps) with
      | some ij => rfl
      | none => rfl

theorem nodeForAux_nil (isT : Bool) (now : Int) (fuel : Nat) (n : Node) :
    nodeForAux isT now fuel n [] = (n, []) := by
  cases fuel <;> rfl

/-- The descent step of `nodeFor` in closed form when a child is found. -/
theorem nodeForAux_found (isT : Bool) (now : Int) (f : Nat) (n : Node) (p : String)
    (ps : List String) (i j : Nat) (hf : findChild n.children (p :: ps) = some (i, j)) :
    nodeForAux isT now (f + 1) n (p :: ps) =
      (Node.node n.data (n.children.set i
        (nodeForAux isT now f (n.children.getD i default) ((p :: ps).drop j)).1),
       i :: (nodeForAux isT now f (n.children.getD i default) ((p :: ps).drop j)).2) := by
  conv_lhs => unfold nodeForAux
  rw [hf]

theorem map_name_set (cs : List Node) (i : Nat) (x : Node)
    (hn : x.data.name = (cs.getD i default).data.name) :
    (cs.set i x).map (fun c => c.data.name) = cs.map (fun c => c.data.name) := by
  induction cs generalizing i with
  | nil => rfl
  | cons c rest ih =>
    cases i with
    | zero => simp_all [List.set, List.getD]
    | succ i =>
      simp only [List.set, List.map_cons, List.cons.injEq, true_and]
      exact ih i (by simpa [List.getD] using hn)

theorem findIdxNamed_congr (cs cs' : List Node)
    (h : cs.map (fun c => c.data.name) = cs'.map (fun c => c.data.name)) (nm : String) :
    findIdxNamed cs nm = findIdxNamed cs' nm := by
  induction cs generalizing cs' with
  | nil => cases cs' with
    | nil => rfl
    | cons _ _ => simp at h
  | cons c rest ih =>
    cases cs' with
    | nil => simp at h
    | cons c' rest' =>
      simp only [List.map_cons, List.cons.injEq] at h
      show (if c.data.name = nm then some 0 else (findIdxNamed rest nm).map (· + 1)) =
        (if c'.data.name = nm then some 0 else (findIdxNamed rest' nm).map (· + 1))
      rw [h.1, ih rest' h.2]

theorem findChild_congr (cs cs' : List Node)
    (h : cs.map (fun c => c.data.name) = cs'.map (fun c => c.data.name))
    (parts : List String) :
    findChild cs parts = findChild cs' parts := by
  unfold findChild
  have hfun : (fun j => (findIdxNamed cs (joinSlash (parts.take j))).map fun i => (i, j)) =
      (fun j => (findIdxNamed cs' (joinSlash (parts.take j))).map fun i => (i, j)) := by
    funext j
    rw [findIdxNamed_congr cs cs' h]
  rw [hfun]

theorem findIdxNamed_append_none (cs : List Node) (x : Node) (nm : String)
    (h : findIdxNamed cs nm = none) :
    findIdxNamed (cs ++ [x]) nm =
      if x.data.name = nm then some cs.length else none := by
  induction cs with
  | nil =>
    show (if x.data.name = nm then some 0 else (findIdxNamed [] nm).map (· + 1)) = _
    by_cases hx : x.data.name = nm <;> simp [hx, findIdxNamed]
  | cons c rest ih =>
    have hcrest : (if c.data.name = nm then some 0 else (findIdxNamed rest nm).map (· + 1)) =
        none := h
    by_cases hc : c.data.name = nm
    · rw [if_pos hc] at hcrest; cases hcrest
    · rw [if_neg hc] at hcrest
      have hrest : findIdxNamed rest nm = none := by
        cases hr : findIdxNamed rest nm with
        | none => rfl
        | some i => rw [hr] at hcrest; cases hcrest
      show (if c.data.name = nm then some 0 else (findIdxNamed (rest ++ [x]) nm).map (· + 1)) = _
      rw [if_neg hc, ih hrest]
      by_cases hx : x.data.name = nm <;> simp [hx]

theorem findSome?_append_none {α β : Type} (f : α → Option β) (l1 l2 : List α)
    (h : ∀ x ∈ l1, f x = none) : (l1 ++ l2).findSome? f = l2.findSome? f := by
  induction l1 with
  | nil => rfl
  | cons a t ih =>
    simp only [List.cons_append, List.findSome?_cons]
    rw [h a (List.mem_cons_self a t)]
    exact ih fun x hx => h x (List.mem_cons_of_mem a hx)

/-- After the creation branch ran, re-resolving the same parts finds the
newly appended child at `j = parts.length` and at no smaller `j`. -/
theorem findChild_append_new (cs : List Node) (parts : List String) (new : Node)
    (hne : parts ≠ []) (hnone : findChild cs parts = none)
    (hnm : new.data.name = joinSlash parts) :
    findChild (cs ++ [new]) parts = some (cs.length, parts.length) := by
  have hall := List.findSome?_eq_none_iff.mp hnone
  have hlenpos : 1 ≤ parts.length := by
    cases parts with
    | nil => exact absurd rfl hne
    | cons _ _ => simp
  unfold findChild
  obtain ⟨k, hk⟩ : ∃ k, parts.length = k + 1 := ⟨parts.length - 1, by omega⟩
  rw [hk, List.range'_concat]
  rw [findSome?_append_none]
  · have htake : parts.take (1 + 1 * k) = parts := by
      rw [List.take_of_length_le (by omega)]
    simp only [List.findSome?_cons, List.findSome?_nil]
    rw [htake]
    have hidx : findIdxNamed cs (joinSlash parts) = none := by
      have hone := hall (1 + 1 * k)
        (by rw [hk] at hlenpos ⊢; exact List.mem_range'_1.mpr (by omega))
      rw [htake] at hone
      cases hr : findIdxNamed cs (joinSlash parts) with
      | none => rfl
      | some i => rw [hr] at hone; simp at hone
    rw [findIdxNamed_append_none cs new (joinSlash parts) hidx, if_pos hnm]
    simp
    omega
  · intro j hj
    have hjb := List.mem_range'_1.mp hj
    have hjlt : j < parts.length := by omega
    have hj1 : 1 ≤ j := hjb.1
    have hidx : findIdxNamed cs (joinSlash (parts.take j)) = none := by
      have hone := hall j (List.mem_range'_1.mpr (by omega))
      cases hr : findIdxNamed cs (joinSlash (parts.take j)) with
      | none => rfl
      | some i => rw [hr] at hone; simp at hone
    rw [findIdxNamed_append_none cs new _ hidx,
      if_neg (fun hcon => joinSlash_take_ne parts j hj1 hjlt (hnm ▸ hcon).symm)]
    rfl

theorem getD_set_self (cs : List Node) (i : Nat) (x d : Node) (h : i < cs.length) :
    (cs.set i x).getD i d = x := by
  induction cs generalizing i with
  | nil => cases h
  | cons c rest ih =>
    cases i with
    | zero => rfl
    | succ i => exact ih i (Nat.lt_of_succ_lt_succ h)

theorem getD_append_length (cs : List Node) (x d : Node) :
    (cs ++ [x]).getD cs.length d = x := by
  induction cs with
  | nil => rfl
  | cons c rest ih => exact ih

theorem set_append_length (cs : List Node) (x y : Node) :
    (cs ++ [x]).set cs.length y = cs ++ [y] := by
  induction cs with
  | nil => rfl
  | cons c rest ih => simp [List.set, ih]

/-- Re-resolving the same parts immediately after a resolution returns the
same tree (no node created) and the same address (the same node object). -/
theorem nodeForAux_idem (isT isT' : Bool) (now now' : Int) :
    ∀ (fuel : Nat) (parts : List String) (n : Node), parts.length ≤ fuel →
      nodeForAux isT' now' fuel (nodeForAux isT now fuel n parts).1 parts =
        nodeForAux isT now fuel n parts := by
  intro fuel
  induction fuel with
  | zero =>
    intro parts n h
    cases parts with
    | nil => rfl
    | cons p ps => simp at h
  | succ f ih =>
    intro parts n h
    cases parts with
    | nil => rfl
    | cons p ps =>
      obtain ⟨nd, ncs⟩ := n
      cases hf : findChild ncs (p :: ps) with
      | some ij =>
        obtain ⟨i, j⟩ := ij
        have hb := findChild_bounds ncs (p :: ps) i j hf
        have hR := nodeForAux_found isT now f (Node.node nd ncs) p ps i j hf
        simp only [Node.children, Node.data] at hR
        rw [hR]
        dsimp only
        have hnames : (ncs.set i
            (nodeForAux isT now f (ncs.getD i default) ((p :: ps).drop j)).1).map
              (fun c => c.data.name) = ncs.map (fun c => c.data.name) :=
          map_name_set _ i _ (by rw [nodeForAux_data])
        have hfc2 : findChild (ncs.set i
            (nodeForAux isT now f (ncs.getD i default) ((p :: ps).drop j)).1) (p :: ps) =
            some (i, j) := by
          rw [findChild_congr _ ncs hnames, hf]
        have hS2 := nodeForAux_found isT' now' f (Node.node nd (ncs.set i
          (nodeForAux isT now f (ncs.getD i default) ((p :: ps).drop j)).1)) p ps i j hfc2
        simp only [Node.children, Node.data] at hS2
        rw [hS2]
        rw [getD_set_self _ i _ _ hb.1]
        have hdl : ((p :: ps).drop j).length ≤ f := by
          have hld := List.length_drop j (p :: ps)
          have hj1 := hb.2.1
          simp only [List.length_cons] at h hld ⊢
          omega
        rw [ih ((p :: ps).drop j) (ncs.getD i default) hdl]
        rw [List.set_set]
      | none =>
        have hC := nodeForAux_create isT now f (Node.node nd ncs) (p :: ps) (by simp) hf
        simp only [Node.children, Node.data] at hC
        rw [hC]
        dsimp only
        have hfc2 := findChild_append_new ncs (p :: ps)
          (freshNode (joinSlash (p :: ps)) isT now nd.lvl) (by simp) hf rfl
        have hS2 := nodeForAux_found isT' now' f (Node.node nd (ncs ++
          [freshNode (joinSlash (p :: ps)) isT now nd.lvl])) p ps
          ncs.length (p :: ps).length hfc2
        simp only [Node.children, Node.data] at hS2
        rw [hS2]
        rw [getD_append_length, List.drop_length, nodeForAux_nil]
        show (Node.node nd ((ncs ++ [freshNode (joinSlash (p :: ps)) isT now nd.lvl]).set
          ncs.length (freshNode (joinSlash (p :: ps)) isT now nd.lvl)), [ncs.length]) = _
        rw [set_append_length]

/-- **C2 (amended).** Path resolution is idempotent for consecutive
resolutions: re-resolving an event carrying the same `(Package, Test)`
pair immediately after a resolution — with no event for any other path
in between — yields the same address (the same node object) in an
unchanged tree; in particular the second resolution creates no node.
(As stated over *arbitrary* pairs of identical-path events the claim is
false: an intervening event can create a sibling that a prefix join of
the path then matches, diverting the second resolution; see the
counterexample.) -/
theorem c2_resolution_idempotent (m : Model) (ev ev' : TestEvent) (now now' : Int)
    (hp : ev'.pkg = ev.pkg) (ht : ev'.test = ev.test) :
    Model.nodeFor { m with root := (m.nodeFor ev now).1 } ev' now' = m.nodeFor ev now := by
  unfold Model.nodeFor
  have hparts : ev'.parts = ev.parts := by
    unfold TestEvent.parts
    rw [hp, ht]
  rw [hparts, ht]
  exact nodeForAux_idem _ _ now now' ev.parts.length ev.parts m.root (Nat.le_refl _)

/-- Witness for C2: the `pass` event for `p/T` resolves to the same node
the earlier `run` event created, without touching the tree. -/
theorem c2_witness :
    Model.nodeFor { modelW with root := (modelW.nodeFor evRunT 5).1 } evPassT 6 =
      modelW.nodeFor evRunT 5 :=
  c2_resolution_idempotent modelW evRunT evPassT 5 6 rfl rfl

/-- A literal-slash test of package `p`, and a test named `A` that arrives
after it. -/
def evRunAB : TestEvent := { action := "run", pkg := "p", test := "A/B", elapsedNs := 0, out := "" }

def evRunA : TestEvent := { action := "run", pkg := "p", test := "A", elapsedNs := 0, out := "" }

/-- The model after `(p, run)`, `(p, A/B, run)`, `(p, A, run)`. -/
def modelI : Model := runEvents fl0 model0 [(evRunPkg, 1), (evRunAB, 2), (evRunA, 3)]

/-- Counterexample for C2 as stated (over arbitrary pairs of events with
identical paths): resolving `(p, A/B)` right after the package event
creates the node named `"A/B"` at address `[0, 0]`; after an intervening
event for `(p, A)`, resolving the identical `(p, A/B)` path matches the
prefix join `j = 1` against the newly created sibling `"A"`, descends
into it, and **creates a new node** `"B"` at address `[0, 1, 0]` — a
different node object, and the `"A"` node gains a child. -/
theorem c2_counterexample :
    ((runEvents fl0 model0 [(evRunPkg, 1)]).nodeFor evRunAB 2).2 = [0, 0]
    ∧ (getAt? [0, 0] ((runEvents fl0 model0 [(evRunPkg, 1)]).nodeFor evRunAB 2).1).map
        (fun n => n.data.name) = some "A/B"
    ∧ (modelI.nodeFor evRunAB 9).2 = [0, 1, 0]
    ∧ (getAt? [0, 1, 0] (modelI.nodeFor evRunAB 9).1).map (fun n => n.data.name) = some "B"
    ∧ (getAt? [0, 1] modelI.root).map (fun n => (n.data.name, n.children.length)) =
        some ("A", 0)
    ∧ (getAt? [0, 1] (modelI.nodeFor evRunAB 9).1).map
        (fun n => (n.data.name, n.children.length)) = some ("A", 1)
    ∧ ("B" : String) ≠ "A/B"
    ∧ ([0, 1, 0] : List Nat) ≠ [0, 0] := by
  refine ⟨by decide, by decide, by decide, by decide, by decide, by decide, by decide,
    by decide⟩

/-! ## C6: the run-then-pass scenario -/

/-- The terminal event of the spec scenario: `pass` with `Elapsed = 0.5`
seconds, i.e. 500000000 ns. -/
def evPassT1 : TestEvent :=
  { action := "pass", pkg := "pkg", test := "Test1", elapsedNs := 500000000, out := "" }

/-- Counterexample for C6 as stated: on a **fresh** model the two events
`(pkg, Test1, run)`, `(pkg, Test1, pass, 0.5)` do *not* produce a leaf
under a `"pkg"` group node — no package-level event ever occurred, so the
first resolution creates a single level-1 node named `"pkg/Test1"`
directly under the root (the documented ancestors-first assumption is
violated by the scenario itself). -/
theorem c6_counterexample :
    (runEvents fl0 model0 [(evRunTest1, 1), (evPassT1, 2)]).root.children.map
      (fun c => (c.data.name, c.data.lvl, c.data.isTest)) = [("pkg/Test1", 1, true)]
    ∧ (runEvents fl0 model0 [(evRunTest1, 1), (evPassT1, 2)]).root.children.map
        (fun c => c.children.length) = [0] := by
  exact ⟨by decide, by decide⟩

/-- The model after the amended scenario (package-level `run` first). -/
def modelC6 : Model := runEvents fl0 model0 [(evRunPkg2, 1), (evRunTest1, 2), (evPassT1, 3)]

/-- **C6 (amended).** With a preceding package-level `run` event (so the
ancestor-before-descendant precondition holds), the scenario behaves as
claimed: exactly one leaf node under the `"pkg"` group node, status
`pass`, done, `elapsed` = 500 ms taken from the event's `elapsedSeconds`
(overwriting the derived value) with the resume timestamp cleared, and
`total = 1`, `passes = 1`. -/
theorem c6_scenario :
    modelC6.root.children.map (fun c => (c.data.name, c.data.lvl, c.data.isTest)) =
      [("pkg", 1, false)]
    ∧ (getAt? [0] modelC6.root).map (fun c => c.children.length) = some 1
    ∧ (getAt? [0, 0] modelC6.root).map
        (fun t => (t.data.name, t.data.isTest, t.data.status, t.data.done)) =
        some ("Test1", true, "pass", true)
    ∧ (getAt? [0, 0] modelC6.root).map
        (fun t => (t.data.elapsed, t.data.start, t.children.length)) =
        some (500000000, 0, 0)
    ∧ modelC6.passes = 1 ∧ modelC6.total = 1 ∧ modelC6.fails = 0 ∧ modelC6.skips = 0 := by
  refine ⟨by decide, by decide, by decide, by decide, by decide, by decide, by decide, by decide⟩

/-! ## C5 and C9: counterexamples -/

def evPauseT : TestEvent := { action := "pause", pkg := "p", test := "T", elapsedNs := 0, out := "" }

def evContT : TestEvent := { action := "cont", pkg := "p", test := "T", elapsedNs := 0, out := "" }

/-- `p/T` started at 0, paused at 7 (stored elapsed 7), resumed at 10. -/
def modelP : Model :=
  runEvents fl0 model0 [(evRunPkg, 0), (evRunT, 0), (evPauseT, 7), (evContT, 10)]

/-- Counterexample for C5 as stated: pausing `p/T` again at `now = 12`
stores `now − resumedAt = 2`, **discarding** the previously accumulated
elapsed 7; the claimed `old elapsed + (now − resumedAt)` would be 9. -/
theorem c5_counterexample :
    (getAt? [0, 0] modelP.root).map
      (fun n => (n.data.elapsed, n.data.start, n.data.isTest, n.data.done)) =
      some (7, 10, true, false)
    ∧ (getAt? [0, 0] (modelP.processEvent fl0 evPauseT 12).root).map
        (fun n => (n.data.elapsed, n.data.start, n.data.done)) = some (2, 12, false)
    ∧ (7 + (12 - 10) : Int) = 9
    ∧ (2 : Int) ≠ 9 := by
  refine ⟨by decide, by decide, by decide, by decide⟩

/-- A terminal event whose ancestors never appeared: `p` and `p/A` are
unknown when `pass` for `p` / `A/B` arrives. -/
def evPassAB : TestEvent :=
  { action := "pass", pkg := "p", test := "A/B", elapsedNs := 0, out := "" }

/-- Counterexample for C9 as stated: the event is **not** dropped — one
node named `"p/A/B"` is created under the root and the pass/total counters
are incremented. -/
theorem c9_counterexample :
    (model0.processEvent fl0 evPassAB 5).total = 1
    ∧ (model0.processEvent fl0 evPassAB 5).passes = 1
    ∧ model0.total = 0
    ∧ (model0.processEvent fl0 evPassAB 5).root.children.map (fun c => c.data.name) = ["p/A/B"]
    ∧ model0.root.children.map (fun c => c.data.name) = [] := by
  refine ⟨by decide, by decide, by decide, by decide, by decide⟩

/-! ## Addressing lemmas (shared by the pause, resolution-failure and
output-frame theorems) -/

theorem get?_append_length (cs : List Node) (x : Node) :
    (cs ++ [x]).get? cs.length = some x := by
  induction cs with
  | nil => rfl
  | cons c rest ih => exact ih

theorem get?_lt_length {α : Type} :
    ∀ (s : List α) (k : Nat) (x : α), s.get? k = some x → k < s.length := by
  intro s
  induction s with
  | nil => intro k x h; cases h
  | cons c rest ih =>
    intro k x h
    cases k with
    | zero => simp
    | succ k =>
      have := ih k x h
      simp
      omega

theorem get?_eq_some_getD {α : Type} :
    ∀ (s : List α) (k : Nat) (x d : α), s.get? k = some x → s.getD k d = x := by
  intro s
  induction s with
  | nil => intro k x d h; cases h
  | cons c rest ih =>
    intro k x d h
    cases k with
    | zero => cases h; rfl
    | succ k => exact ih k x d h

theorem mem_set_self {α : Type} :
    ∀ (s : List α) (k : Nat) (x : α), k < s.length → x ∈ s.set k x := by
  intro s
  induction s with
  | nil => intro k x h; cases h
  | cons c rest ih =>
    intro k x h
    cases k with
    | zero => exact List.mem_cons_self _ _
    | succ k => exact List.mem_cons_of_mem c (ih k x (Nat.lt_of_succ_lt_succ h))

theorem nodeForAux_snd_ne_nil (isT : Bool) (now : Int) (f : Nat) (n : Node)
    (p : String) (ps : List String) :
    (nodeForAux isT now (f + 1) n (p :: ps)).2 ≠ [] := by
  cases hf : findChild n.children (p :: ps) with
  | some ij =>
    obtain ⟨i, j⟩ := ij
    rw [nodeForAux_found isT now f n p ps i j hf]
    simp
  | none =>
    rw [nodeForAux_create isT now f n (p :: ps) (by simp) hf]
    simp

theorem nodeFor_snd_ne_nil (m : Model) (ev : TestEvent) (now : Int) :
    (m.nodeFor ev now).2 ≠ [] := by
  show (nodeForAux (decide (ev.test ≠ "")) now ev.parts.length m.root ev.parts).2 ≠ []
  obtain ⟨R, hR⟩ : ∃ R, ev.parts = ev.pkg :: R := ⟨_, rfl⟩
  rw [hR, List.length_cons]
  exact nodeForAux_snd_ne_nil _ now R.length m.root ev.pkg R

theorem concat_decomp {α : Type} (d : α) :
    ∀ l : List α, l ≠ [] → l.dropLast ++ [l.getLastD d] = l
  | [], h => absurd rfl h
  | [_], _ => rfl
  | x :: y :: ys, _ => by
    show x :: ((y :: ys).dropLast ++ [(y :: ys).getLastD d]) = x :: y :: ys
    rw [concat_decomp d (y :: ys) (by simp)]

theorem getAt?_append_last (a : List Nat) (k : Nat) :
    ∀ t : Node, getAt? (a ++ [k]) t = (getAt? a t).bind fun p => p.children.get? k := by
  induction a with
  | nil =>
    intro t
    cases t with
    | node d cs =>
      show (cs.get? k).bind (getAt? []) = cs.get? k
      cases cs.get? k with
      | none => rfl
      | some c => rfl
  | cons i rest ih =>
    intro t
    cases t with
    | node d cs =>
      show (cs.get? i).bind (getAt? (rest ++ [k])) = ((cs.get? i).bind (getAt? rest)).bind _
      cases cs.get? i with
      | none => rfl
      | some c =>
        show getAt? (rest ++ [k]) c = (getAt? rest c).bind _
        exact ih c

theorem listModify_get?_self {α : Type} (g : α → α) :
    ∀ (cs : List α) (i : Nat), (listModify g i cs).get? i = (cs.get? i).map g := by
  intro cs
  induction cs with
  | nil => intro i; cases i <;> rfl
  | cons c rest ih =>
    intro i
    cases i with
    | zero => rfl
    | succ i => exact ih i

theorem listModify_get?_ne {α : Type} (g : α → α) :
    ∀ (cs : List α) (i j : Nat), j ≠ i → (listModify g i cs).get? j = cs.get? j := by
  intro cs
  induction cs with
  | nil => intro i j _; cases i <;> rfl
  | cons c rest ih =>
    intro i j hne
    cases i with
    | zero =>
      cases j with
      | zero => exact absurd rfl hne
      | succ j => rfl
    | succ i =>
      cases j with
      | zero => rfl
      | succ j => exact ih i j (fun hc => hne (by rw [hc]))

theorem getAt?_updateAt (f : Node → Node) :
    ∀ (a : List Nat) (t : Node), getAt? a (updateAt f a t) = (getAt? a t).map f := by
  intro a
  induction a with
  | nil => intro t; rfl
  | cons i rest ih =>
    intro t
    cases t with
    | node d cs =>
      show ((listModify (updateAt f rest) i cs).get? i).bind (getAt? rest) =
        ((cs.get? i).bind (getAt? rest)).map f
      rw [listModify_get?_self]
      cases cs.get? i with
      | none => rfl
      | some c =>
        show getAt? rest (updateAt f rest c) = (getAt? rest c).map f
        exact ih c

theorem mem_processChildren_false (fl : Flags) (s : List Node) (x : Node) (hx : x ∈ s) :
    x ∈ processChildren fl s false := by
  unfold processChildren
  by_cases h : s.length = 0
  · rw [if_pos h]; exact hx
  · rw [if_neg h]
    exact (mem_sortStableCmp _ x s).mpr hx

/-! ## C5: pause overwrites the stored elapsed -/

/-- The `pause` case of the action switch in closed form: on a not-done
test node it **sets** `elapsed = now − start` (discarding the previous
value), sets `start = now`, sets the status, and leaves `done` false. -/
theorem applyAction_pause (fl : Flags) (now : Int) (ev : TestEvent) (n0 : Node)
    (hact : ev.action = "pause") (hel : ev.elapsedNs ≤ 0)
    (hisT : n0.data.isTest = true) (hdone : n0.data.done = false) :
    applyAction fl now ev n0 =
      Node.node { n0.data with
        status := "pause"
        elapsed := now - n0.data.start
        start := now } n0.children := by
  obtain ⟨d0, cs0⟩ := n0
  simp only [Node.data] at hisT hdone
  have hlt : ¬ (0 < ev.elapsedNs) := by omega
  unfold applyAction applyElapsed
  rw [hact, if_neg hlt]
  simp [Node.data, Node.children, hisT, hdone]

/-- The tail of `processEvent` when the updated node is not done: no
drop/merge logic runs, the sibling list is re-sorted with the updated node
in place. -/
theorem stepAtParent_not_done (fl : Flags) (now : Int) (ev : TestEvent) (k : Nat) (p : Node)
    (hnd : (applyAction fl now ev (p.children.getD k default)).data.done = false) :
    stepAtParent fl now ev k p =
      Node.node p.data (processChildren fl
        (p.children.set k (applyAction fl now ev (p.children.getD k default))) false) := by
  have hcond : ((applyAction fl now ev (p.children.getD k default)).data.done &&
      (applyAction fl now ev (p.children.getD k default)).data.outputBuf.isSome) = false := by
    rw [hnd]; rfl
  unfold stepAtParent
  dsimp only
  rw [hcond]
  simp only [Bool.false_eq_true, if_false]

/-- **C5 (amended).** Applying a `pause` event (with no authoritative
elapsed) to a not-done test node sets the node's elapsed to
`now − resumedAt` — **overwriting**, not adding to, the stored elapsed —
then sets `resumedAt = now`; the node remains not done and no global
counter changes. -/
theorem c5_pause_semantics (fl : Flags) (m : Model) (ev : TestEvent) (now : Int) (n0 : Node)
    (hact : ev.action = "pause") (hel : ev.elapsedNs ≤ 0)
    (hres : getAt? (m.nodeFor ev now).2 (m.nodeFor ev now).1 = some n0)
    (hisT : n0.data.isTest = true) (hdone : n0.data.done = false) :
    ((m.processEvent fl ev now).passes = m.passes
      ∧ (m.processEvent fl ev now).fails = m.fails
      ∧ (m.processEvent fl ev now).skips = m.skips
      ∧ (m.processEvent fl ev now).total = m.total)
    ∧ ∃ p', getAt? (m.nodeFor ev now).2.dropLast (m.processEvent fl ev now).root = some p'
        ∧ Node.node { n0.data with
            status := "pause"
            elapsed := now - n0.data.start
            start := now } n0.children ∈ p'.children := by
  have hne : ¬ (ev.action = "output") := by rw [hact]; decide
  constructor
  · refine ⟨?_, ?_, ?_, ?_⟩
    · rw [processEvent_passes]
      simp [hact]
    · rw [processEvent_fails]
      simp [hact]
    · rw [processEvent_skips]
      simp [hact]
    · rw [processEvent_total]
      simp [isTerminal, hact]
  · have hroot : (m.processEvent fl ev now).root =
        updateAt (stepAtParent fl now ev ((m.nodeFor ev now).2.getLastD 0))
          (m.nodeFor ev now).2.dropLast (m.nodeFor ev now).1 := by
      simp [Model.processEvent, hne]
    have hdec := concat_decomp 0 (m.nodeFor ev now).2 (nodeFor_snd_ne_nil m ev now)
    rw [← hdec, getAt?_append_last] at hres
    cases hp : getAt? (m.nodeFor ev now).2.dropLast (m.nodeFor ev now).1 with
    | none => rw [hp] at hres; cases hres
    | some p =>
      rw [hp] at hres
      have hc : p.children.get? ((m.nodeFor ev now).2.getLastD 0) = some n0 := hres
      have hklt := get?_lt_length p.children _ n0 hc
      have hgetD : p.children.getD ((m.nodeFor ev now).2.getLastD 0) default = n0 :=
        get?_eq_some_getD _ _ _ _ hc
      have hAA : applyAction fl now ev (p.children.getD ((m.nodeFor ev now).2.getLastD 0) default) =
          Node.node { n0.data with
            status := "pause"
            elapsed := now - n0.data.start
            start := now } n0.children := by
        rw [hgetD]
        exact applyAction_pause fl now ev n0 hact hel hisT hdone
      refine ⟨stepAtParent fl now ev ((m.nodeFor ev now).2.getLastD 0) p, ?_, ?_⟩
      · rw [hroot, getAt?_updateAt, hp]
        rfl
      · rw [stepAtParent_not_done fl now ev _ p (by rw [hAA]; exact hdone)]
        show _ ∈ processChildren fl (p.children.set ((m.nodeFor ev now).2.getLastD 0)
          (applyAction fl now ev
            (p.children.getD ((m.nodeFor ev now).2.getLastD 0) default))) false
        apply mem_processChildren_false
        have hm := mem_set_self p.children ((m.nodeFor ev now).2.getLastD 0)
          (applyAction fl now ev
            (p.children.getD ((m.nodeFor ev now).2.getLastD 0) default)) hklt
        rw [hAA] at hm
        rw [hAA]
        exact hm

/-- Witness for C5 at the concrete pause trace: `p/T` has stored elapsed 7
and was resumed at 10; pausing at 12 stores `12 − 10 = 2`. -/
theorem c5_witness :
    ∃ p', getAt? (modelP.nodeFor evPauseT 12).2.dropLast
        (modelP.processEvent fl0 evPauseT 12).root = some p'
      ∧ Node.node { name := "T", firstStart := 0, start := 12, status := "pause",
                    done := false, doneTs := 0, outputBuf := none, elapsed := 12 - 10,
                    isTest := true, lvl := 2, msg := "" } [] ∈ p'.children := by
  have h := c5_pause_semantics fl0 modelP evPauseT 12
    (Node.node { name := "T", firstStart := 0, start := 10, status := "cont",
                 done := false, doneTs := 0, outputBuf := none, elapsed := 7,
                 isTest := true, lvl := 2, msg := "" } [])
    rfl (by decide) (by rfl) (by decide) (by decide)
  exact h.2

/-! ## C9: events with missing ancestors are not dropped -/

/-- **C9 (amended).** An event whose ancestor path has never appeared (no
prefix join of its segments matches any child of the root) is **not**
dropped: resolution creates a single node named by the join of all
segments directly under the root, and a terminal `pass` action for a
nonempty test path is applied to it, incrementing `passes` and `total`. -/
theorem c9_unresolvable_not_dropped (fl : Flags) (m : Model) (ev : TestEvent) (now : Int)
    (hnone : findChild m.root.children ev.parts = none)
    (hpass : ev.action = "pass") (htest : ev.test ≠ "") :
    m.nodeFor ev now =
      (Node.node m.root.data (m.root.children ++
        [freshNode (joinSlash ev.parts) true now m.root.data.lvl]),
       [m.root.children.length])
    ∧ (m.processEvent fl ev now).passes = m.passes + 1
    ∧ (m.processEvent fl ev now).total = m.total + 1
    ∧ (m.processEvent fl ev now).fails = m.fails
    ∧ (m.processEvent fl ev now).skips = m.skips := by
  obtain ⟨R, hR⟩ : ∃ R, ev.parts = ev.pkg :: R := ⟨_, rfl⟩
  have hT : decide (ev.test ≠ "") = true := decide_eq_true htest
  have hcreate : m.nodeFor ev now =
      (Node.node m.root.data (m.root.children ++
        [freshNode (joinSlash ev.parts) true now m.root.data.lvl]),
       [m.root.children.length]) := by
    show nodeForAux (decide (ev.test ≠ "")) now ev.parts.length m.root ev.parts = _
    rw [hT, hR, List.length_cons]
    rw [nodeForAux_create true now R.length m.root (ev.pkg :: R) (by simp)
      (by rw [← hR]; exact hnone)]
  have hrit : resolvedIsTest m ev now = true := by
    unfold resolvedIsTest
    rw [hcreate]
    show ((((m.root.children ++
      [freshNode (joinSlash ev.parts) true now m.root.data.lvl]).get?
        m.root.children.length).bind (getAt? [])).getD default).data.isTest = true
    rw [get?_append_length]
    rfl
  refine ⟨hcreate, ?_, ?_, ?_, ?_⟩
  · rw [processEvent_passes, hpass, hrit]
    simp
  · rw [processEvent_total, hpass, hrit]
    simp [isTerminal]
  · rw [processEvent_fails, hpass, hrit]
    simp
  · rw [processEvent_skips, hpass, hrit]
    simp

/-- Witness for C9 at the concrete unresolvable event `(p, A/B, pass)` on a
fresh model. -/
theorem c9_witness :
    model0.nodeFor evPassAB 5 =
      (Node.node model0.root.data (model0.root.children ++
        [freshNode (joinSlash evPassAB.parts) true 5 model0.root.data.lvl]),
       [model0.root.children.length])
    ∧ (model0.processEvent fl0 evPassAB 5).passes = model0.passes + 1
    ∧ (model0.processEvent fl0 evPassAB 5).total = model0.total + 1 := by
  have h := c9_unresolvable_not_dropped fl0 model0 evPassAB 5 (by decide) rfl (by decide)
  exact ⟨h.1, h.2.1, h.2.2.1⟩

/-! ## C10: output events only touch buffers and summary messages -/

/-- A node's data minus the output buffer and the summary message. -/
def dataProj (d : NodeData) : String × String × Bool × Int × Int × Int × Int × Bool × Nat :=
  (d.name, d.status, d.done, d.doneTs, d.elapsed, d.start, d.firstStart, d.isTest, d.lvl)

/-- The frame C10 talks about: everything except buffers/messages, plus
the ordered list of children names (sibling order and membership). -/
def statusProj (n : Node) :
    (String × String × Bool × Int × Int × Int × Int × Bool × Nat) × List String :=
  (dataProj n.data, n.children.map fun c => c.data.name)

/-- `output` never changes a node's children, and of its data only the
output buffer and the summary message. -/
theorem output_preserves_frame (n : Node) (s : String) :
    (n.output s).children = n.children ∧ dataProj (n.output s).data = dataProj n.data := by
  obtain ⟨d, cs⟩ := n
  unfold Node.output Node.prepend Node.append
  by_cases h : (Node.node d cs).data.lvl = 1
  · rw [if_pos h]
    cases packageSummaryMatch s <;> simp [Node.data, Node.children, dataProj]
  · rw [if_neg h]
    by_cases h1 : hasPrefixStr s "==="
    · simp [h1, Node.data, Node.children, dataProj]
    · by_cases h2 : hasPrefixStr s "---"
      · simp only [h1, h2, Bool.false_eq_true, if_false, if_true]
        cases hb : (Node.node d cs).data.outputBuf <;>
          simp [hb, Node.data, Node.children, dataProj]
      · simp only [h1, h2, Bool.false_eq_true, if_false]
        cases hb : (Node.node d cs).data.outputBuf <;>
          simp [hb, Node.data, Node.children, dataProj]

theorem updateAt_name (f : Node → Node)
    (hf : ∀ x, (f x).children = x.children ∧ dataProj (f x).data = dataProj x.data) :
    ∀ (a : List Nat) (c : Node), (updateAt f a c).data.name = c.data.name := by
  intro a c
  cases a with
  | nil => exact congrArg Prod.fst (hf c).2
  | cons i rest => cases c; rfl

theorem listModify_map_name (g : Node → Node)
    (hg : ∀ c, (g c).data.name = c.data.name) :
    ∀ (cs : List Node) (i : Nat),
      (listModify g i cs).map (fun c => c.data.name) = cs.map (fun c => c.data.name) := by
  intro cs
  induction cs with
  | nil => intro i; cases i <;> rfl
  | cons c rest ih =>
    intro i
    cases i with
    | zero => simp [listModify, hg c]
    | succ i => simp [listModify, ih i]

/-- Rewriting one node with a buffer-only change preserves the frame of
every node in the tree. -/
theorem updateAt_frame (f : Node → Node)
    (hf : ∀ x, (f x).children = x.children ∧ dataProj (f x).data = dataProj x.data) :
    ∀ (a b : List Nat) (t : Node),
      (getAt? b (updateAt f a t)).map statusProj = (getAt? b t).map statusProj := by
  intro a
  induction a with
  | nil =>
    intro b t
    cases b with
    | nil =>
      show some (statusProj (f t)) = some (statusProj t)
      unfold statusProj
      rw [(hf t).1, (hf t).2]
    | cons j brest =>
      show (getAt? (j :: brest) (f t)).map statusProj =
        (getAt? (j :: brest) t).map statusProj
      have h1 : (f t).children = t.children := (hf t).1
      cases hft : f t with
      | node fd fcs =>
        cases t with
        | node td tcs =>
          rw [hft] at h1
          simp only [Node.children] at h1
          show ((fcs.get? j).bind (getAt? brest)).map statusProj =
            ((tcs.get? j).bind (getAt? brest)).map statusProj
          rw [h1]
  | cons i arest ih =>
    intro b t
    cases t with
    | node d cs =>
      cases b with
      | nil =>
        show some (dataProj d, (listModify (updateAt f arest) i cs).map
            (fun c => c.data.name)) =
          some (dataProj d, cs.map (fun c => c.data.name))
        rw [listModify_map_name (updateAt f arest) (fun c => updateAt_name f hf arest c) cs i]
      | cons j brest =>
        show (((listModify (updateAt f arest) i cs).get? j).bind (getAt? brest)).map statusProj =
          ((cs.get? j).bind (getAt? brest)).map statusProj
        by_cases hji : j = i
        · subst hji
          rw [listModify_get?_self]
          cases hg : cs.get? j with
          | none => rfl
          | some c =>
            show (getAt? brest (updateAt f arest c)).map statusProj =
              (getAt? brest c).map statusProj
            exact ih brest c
        · rw [listModify_get?_ne _ _ _ _ hji]

/-- **C10 (amended).** For an `output` event with zero `elapsedSeconds`
whose path resolves without creating a node, `processEvent` changes at
most the resolved node's output buffer and summary message: the global
counters, and at every address the node's name, status, done flag,
timestamps, elapsed, isTest, level and the ordered list of its children's
names, are all unchanged. -/
theorem c10_output_frame (fl : Flags) (m : Model) (ev : TestEvent) (now : Int)
    (hact : ev.action = "output") (hel : ev.elapsedNs = 0)
    (hres : (m.nodeFor ev now).1 = m.root) :
    (m.processEvent fl ev now).passes = m.passes
    ∧ (m.processEvent fl ev now).fails = m.fails
    ∧ (m.processEvent fl ev now).skips = m.skips
    ∧ (m.processEvent fl ev now).total = m.total
    ∧ ∀ a : List Nat,
        (getAt? a (m.processEvent fl ev now).root).map statusProj =
          (getAt? a m.root).map statusProj := by
  have happ : ∀ x, applyElapsed ev x = x := by
    intro x
    unfold applyElapsed
    rw [if_neg (by omega)]
  have hfr : ∀ x, ((applyElapsed ev x).output ev.out).children = x.children
      ∧ dataProj ((applyElapsed ev x).output ev.out).data = dataProj x.data := by
    intro x
    rw [happ x]
    exact output_preserves_frame x ev.out
  have hroot : (m.processEvent fl ev now).root =
      updateAt (fun n => (applyElapsed ev n).output ev.out) (m.nodeFor ev now).2 m.root := by
    rw [← hres]
    simp [Model.processEvent, hact]
  refine ⟨?_, ?_, ?_, ?_, ?_⟩
  · rw [processEvent_passes]; simp [hact]
  · rw [processEvent_fails]; simp [hact]
  · rw [processEvent_skips]; simp [hact]
  · rw [processEvent_total]; simp [isTerminal, hact]
  · intro a
    rw [hroot]
    exact updateAt_frame _ hfr (m.nodeFor ev now).2 a m.root

/-- An `output` event for a never-seen package path. -/
def evOutNew : TestEvent :=
  { action := "output", pkg := "p", test := "", elapsedNs := 0, out := "hello\n" }

/-- Counterexample for C10 as stated: an `output` event (elapsed 0) whose
node does not yet exist **creates** it during resolution, changing the
membership of the root's sibling list. -/
theorem c10_counterexample :
    evOutNew.action = "output" ∧ evOutNew.elapsedNs = 0
    ∧ (model0.processEvent fl0 evOutNew 5).root.children.map (fun c => c.data.name) = ["p"]
    ∧ model0.root.children.map (fun c => c.data.name) = [] := by
  refine ⟨rfl, rfl, by decide, by decide⟩

/-- An `output` event for the existing leaf `p/T`. -/
def evOutT : TestEvent :=
  { action := "output", pkg := "p", test := "T", elapsedNs := 0, out := "body\n" }

/-- Witness for C10 at a concrete resolvable output event. -/
theorem c10_witness :
    (modelW.processEvent fl0 evOutT 9).total = modelW.total
    ∧ (getAt? [0, 0] (modelW.processEvent fl0 evOutT 9).root).map statusProj =
        (getAt? [0, 0] modelW.root).map statusProj := by
  have h := c10_output_frame fl0 modelW evOutT 9 rfl rfl (by rfl)
  exact ⟨h.2.2.2.1, h.2.2.2.2 [0, 0]⟩
